import Mathlib

/-!
Verification development for the colorsquash quantization engine.

Conventions of the shallow embedding:
* `u8` channel values are `Fin 256`; byte buffers are `List Nat` whose
  elements are below 256 wherever the source stores `u8` data.
* `f32` arithmetic is modelled exactly over `ℚ`.  The color difference
  values produced by the supplied metrics are small integers or square
  roots of small integers, far below `f32::MAX`; the structural claims
  proved here do not depend on `f32` rounding.
* The k-means code compares `sqrt` of squared Euclidean norms; since
  `sqrt` is strictly monotone on nonnegative reals, every comparison is
  modelled by comparing the squared norms themselves.
* `Vec<T>` lookup tables are modelled as total functions `Nat → Nat`
  (a dense array read/written at `color_index`); the one-time allocation
  of the table is kept as an explicit `List.replicate` to reason about
  its size.
* Rust `HashMap` iteration order is unspecified; the histogram is built
  in first-occurrence order and the determinism claim (C4) proves the
  sorted output is invariant under arbitrary permutations of that list.
-/

/-- A 24-bit color, `rgb::RGB8`: three 8-bit channels. -/
@[ext]
structure RGB8 where
  r : Fin 256
  g : Fin 256
  b : Fin 256
deriving DecidableEq, Repr

instance : Inhabited RGB8 := ⟨⟨0, 0, 0⟩⟩

/-- `color_index` from lib.rs: `c.r as usize * (256 * 256) + c.g as usize * 256 + c.b as usize`. -/
def color_index (c : RGB8) : Nat :=
  c.r.val * (256 * 256) + c.g.val * 256 + c.b.val

/-- `usize::MAX` on a 64-bit target. -/
def usizeMax : Nat := 2 ^ 64 - 1

/-- `f32::MAX = (2 - 2^-23) * 2^127`, exactly. -/
def fmax : ℚ := 2 ^ 128 - 2 ^ 104

/-- `Count::from_usize` for an unsigned integer type of width `w`
(`from as Self`, i.e. truncation modulo `2^w`). -/
def fromUsize (w : Nat) (n : Nat) : Nat := n % 2 ^ w

namespace difference

/-- `difference::rgb` (difference.rs): sum of absolute channel differences,
computed in `f32` (exact, all values are integers below 766). -/
def rgb (a b : RGB8) : ℚ :=
  |(a.r.val : ℚ) - (b.r.val : ℚ)| + |(a.g.val : ℚ) - (b.g.val : ℚ)|
    + |(a.b.val : ℚ) - (b.b.val : ℚ)|

end difference

/-!
## Histogram

`unique_and_sort` (lib.rs, selection.rs) counts pixel occurrences in a
`HashMap<RGB8, usize>` and sorts the entries with the comparator

  freq2.cmp(freq1).then(colour2.r.cmp(colour1.r))
    .then(colour2.g.cmp(colour1.g)).then(colour2.b.cmp(colour1.b))

i.e. count descending, then R, G, B descending.  `histLe a b` states that
`a` may come before (or equals) `b` in the sorted order, i.e. the
comparator does not return `Greater` on `(a, b)`.
-/

/-- The sort order of the histogram comparator (count descending, ties by
descending R, then G, then B). -/
def histLe (a b : RGB8 × Nat) : Prop :=
  b.2 < a.2 ∨ (b.2 = a.2 ∧ (b.1.r.val < a.1.r.val ∨ (b.1.r.val = a.1.r.val ∧
    (b.1.g.val < a.1.g.val ∨ (b.1.g.val = a.1.g.val ∧ b.1.b.val ≤ a.1.b.val)))))

instance histLe.decRel : DecidableRel histLe := by
  intro a b
  unfold histLe
  infer_instance

instance histLe.total : IsTotal (RGB8 × Nat) histLe :=
  ⟨by intro a b; unfold histLe; omega⟩

instance histLe.trans : IsTrans (RGB8 × Nat) histLe :=
  ⟨by intro a b c h1 h2; unfold histLe at h1 h2 ⊢; omega⟩

instance histLe.antisymm : IsAntisymm (RGB8 × Nat) histLe := by
  constructor
  intro a b h1 h2
  unfold histLe at h1 h2
  have h3 : a.2 = b.2 := by omega
  have h4 : a.1.r.val = b.1.r.val := by omega
  have h5 : a.1.g.val = b.1.g.val := by omega
  have h6 : a.1.b.val = b.1.b.val := by omega
  have hc : a.1 = b.1 := RGB8.ext (Fin.ext h4) (Fin.ext h5) (Fin.ext h6)
  exact Prod.ext_iff.mpr ⟨hc, h3⟩

/-- One `HashMap` update of the pixel-counting pass: increment the count of
`px` if present, otherwise insert it with count 1.  The list keeps
first-occurrence order (one fixed iteration order of the map). -/
def bump (px : RGB8) : List (RGB8 × Nat) → List (RGB8 × Nat)
  | [] => [(px, 1)]
  | (c, n) :: rest => if c = px then (c, n + 1) :: rest else (c, n) :: bump px rest

/-- The pixel-counting pass of `unique_and_sort`: fold `bump` over the buffer. -/
def countPixels (rgb : List RGB8) : List (RGB8 × Nat) :=
  rgb.foldl (fun acc px => bump px acc) []

namespace SortSelect

/-- `SortSelect::sort` (selection.rs) and `Squasher::sort` (lib.rs): sort the
histogram entries with the comparator above and keep the colors. -/
def sort (map : List (RGB8 × Nat)) : List RGB8 :=
  (List.insertionSort histLe map).map Prod.fst

end SortSelect

namespace HeuristicSorsel

/-- `HeuristicSorsel::sort` (selection.rs): same comparator, but the counts
are kept alongside the colors. -/
def sort (map : List (RGB8 × Nat)) : List (RGB8 × Nat) :=
  List.insertionSort histLe map

end HeuristicSorsel

/-- `unique_and_sort` (lib.rs / SortSelect in selection.rs): count pixels,
then sort, keeping only the colors. -/
def unique_and_sort (rgb : List RGB8) : List RGB8 :=
  SortSelect.sort (countPixels rgb)

/-- `HeuristicSorsel::unique_and_sort` (selection.rs): count pixels, then
sort, keeping the counts. -/
def unique_and_sort_counts (rgb : List RGB8) : List (RGB8 × Nat) :=
  HeuristicSorsel.sort (countPixels rgb)

/-!
## Lookup table population (`Squasher::map_selected`)
-/

/-- The inner loop of `map_selected`: scan the palette keeping
`(min_diff, min_index)`, starting from `(f32::MAX, usize::MAX)`, updating
when `diff.max(0.0) < min_diff` (strict, so the lowest index wins ties). -/
def selScan (d : RGB8 → RGB8 → ℚ) (colour : RGB8) :
    List RGB8 → Nat → ℚ → Nat → ℚ × Nat
  | [], _, min_diff, min_index => (min_diff, min_index)
  | selected :: rest, index, min_diff, min_index =>
    let diff := d colour selected
    if max diff 0 < min_diff then selScan d colour rest (index + 1) diff index
    else selScan d colour rest (index + 1) min_diff min_index

/-- `Squasher::map_selected` (lib.rs): for each unique colour, write
`T::from_usize(min_index)` of the palette scan into the table at
`color_index(colour)`.  `w` is the bit width of the index type `T`. -/
def map_selected (w : Nat) (d : RGB8 → RGB8 → ℚ) (palette : List RGB8) :
    List RGB8 → (Nat → Nat) → Nat → Nat
  | [], table => table
  | colour :: rest, table =>
    let scanned := selScan d colour palette 0 fmax usizeMax
    map_selected w d palette rest
      (fun j => if j = color_index colour then fromUsize w scanned.2 else table j)

/-!
## The Squasher state and its operations (lib.rs)
-/

/-- The `Squasher<T>` state.  The difference function is stored in the
state as in the source (`difference_fn: Box<DiffFn>`). -/
structure Squasher where
  max_colours_min1 : Nat
  palette : List RGB8
  map : Nat → Nat
  difference_fn : RGB8 → RGB8 → ℚ
  tolerance_percent : ℚ

/-- The color map allocated by `Squasher::from_parts`:
`vec![T::zero(); 256 * 256 * 256]`. -/
def from_parts_vec : List Nat := List.replicate (256 * 256 * 256) 0

/-- `Squasher::from_parts`: empty palette, zeroed 16M-entry map. -/
def Squasher.from_parts (max_colours_min1 : Nat) (d : RGB8 → RGB8 → ℚ)
    (tolerance : ℚ) : Squasher :=
  { max_colours_min1 := max_colours_min1
    palette := []
    map := fun i => from_parts_vec.getD i 0
    difference_fn := d
    tolerance_percent := tolerance }

/-- The loop of `Squasher::select_colors` (lib.rs).  Note the argument
order of the difference call: `(difference_fn)(&sorted_color, color)`,
candidate first. -/
def selectColorsLoop (d : RGB8 → RGB8 → ℚ) (tolerance : ℚ) (max_colours : Nat) :
    List RGB8 → List RGB8 → List RGB8
  | [], selected_colors => selected_colors
  | sorted_color :: rest, selected_colors =>
    if max_colours ≤ selected_colors.length then selected_colors
    else if selected_colors.all fun color => decide (tolerance < d sorted_color color) then
      selectColorsLoop d tolerance max_colours rest (selected_colors ++ [sorted_color])
    else selectColorsLoop d tolerance max_colours rest selected_colors

/-- `Squasher::select_colors`: tolerance is `(tolerance_percent / 100) * 765`,
the bound is `max_colours_min1 + 1`. -/
def Squasher.select_colors (s : Squasher) (sorted : List RGB8) : List RGB8 :=
  selectColorsLoop s.difference_fn ((s.tolerance_percent / 100) * 765)
    (s.max_colours_min1 + 1) sorted []

/-- `Squasher::recolor`: select a fresh palette from the image; the map,
difference function and tolerance are untouched. -/
def Squasher.recolor (s : Squasher) (image : List RGB8) : Squasher :=
  { s with palette := s.select_colors (unique_and_sort image) }

/-- The per-pixel write loop shared by `map` and `map_no_recolor`:
`for (idx, color) in rgb.iter().enumerate() { buffer[idx] = self.map[color_index(color)]; }`. -/
def writeIndices (table : Nat → Nat) : List RGB8 → List Nat → Nat → List Nat
  | [], buffer, _ => buffer
  | color :: rest, buffer, idx =>
    writeIndices table rest (buffer.set idx (table (color_index color))) (idx + 1)

/-- `Squasher::map` (lib.rs).  `none` models the two panics: the explicit
size check `buffer.len() * 3 < rgb.len()`, and the out-of-bounds write
`buffer[idx]` when the output buffer has fewer entries than pixels. -/
def Squasher.mapPixels (w : Nat) (s : Squasher) (rgb : List RGB8)
    (buffer : List Nat) : Option (List Nat × Squasher) :=
  if buffer.length * 3 < rgb.length then none
  else
    let sorted := unique_and_sort rgb
    let s2 := { s with map := map_selected w s.difference_fn s.palette sorted s.map }
    if rgb.length ≤ buffer.length then some (writeIndices s2.map rgb buffer 0, s2)
    else none

/-- `Squasher::map_no_recolor` (lib.rs): same writes, no table population. -/
def Squasher.map_no_recolor (w : Nat) (s : Squasher) (rgb : List RGB8)
    (buffer : List Nat) : Option (List Nat) :=
  if buffer.length * 3 < rgb.length then none
  else if rgb.length ≤ buffer.length then some (writeIndices s.map rgb buffer 0)
  else none

/-- `<ImageData as From<&[u8]>>::from` via `rgb::FromSlice::as_rgb`: the
byte slice is reinterpreted as `len / 3` pixels; trailing bytes that do
not form a full triple are ignored (no length check, no error). -/
def as_rgb : List Nat → List RGB8
  | b0 :: b1 :: b2 :: rest =>
    ⟨⟨b0 % 256, Nat.mod_lt _ (by norm_num)⟩, ⟨b1 % 256, Nat.mod_lt _ (by norm_num)⟩,
      ⟨b2 % 256, Nat.mod_lt _ (by norm_num)⟩⟩ :: as_rgb rest
  | _ => []

/-- The write loop of `Squasher::map_over` (impl for `u8`): at step `idx`
read the triple at bytes `3*idx .. 3*idx+2` and write the table entry of
that colour to byte `idx`. -/
def mapOverGo (table : Nat → Nat) : List Nat → Nat → Nat → List Nat
  | image, _, 0 => image
  | image, idx, fuel + 1 =>
    let rgb_idx := idx * 3
    let color : RGB8 :=
      ⟨⟨image.getD rgb_idx 0 % 256, Nat.mod_lt _ (by norm_num)⟩,
        ⟨image.getD (rgb_idx + 1) 0 % 256, Nat.mod_lt _ (by norm_num)⟩,
        ⟨image.getD (rgb_idx + 2) 0 % 256, Nat.mod_lt _ (by norm_num)⟩⟩
    mapOverGo table (image.set idx (table (color_index color))) (idx + 1) fuel

/-- `Squasher::map_over` (lib.rs, `impl Squasher<u8>`, so `w = 8`):
repopulate the table from the unique colours of the buffer, then compact
the indices into the first third of the buffer; returns `len / 3`. -/
def Squasher.map_over (s : Squasher) (image : List Nat) :
    (List Nat × Nat) × Squasher :=
  let sorted := unique_and_sort (as_rgb image)
  let s2 := { s with map := map_selected 8 s.difference_fn s.palette sorted s.map }
  ((mapOverGo s2.map image 0 (image.length / 3), image.length / 3), s2)

/-!
## `SortSelect` (selection.rs)
-/

namespace SortSelect

/-- The loop of `SortSelect::select`.  Here the difference call is
`(difference_fn)(selected_color, &sorted_color)`, selected first. -/
def selectLoop (d : RGB8 → RGB8 → ℚ) (tolerance : ℚ) (max_colours : Nat) :
    List RGB8 → List RGB8 → List RGB8
  | [], selected_colors => selected_colors
  | sorted_color :: rest, selected_colors =>
    if max_colours ≤ selected_colors.length then selected_colors
    else if selected_colors.all fun selected_color =>
        decide (tolerance < d selected_color sorted_color) then
      selectLoop d tolerance max_colours rest (selected_colors ++ [sorted_color])
    else selectLoop d tolerance max_colours rest selected_colors

/-- `SortSelect::select`: sort the unique colours, convert the tolerance,
run the greedy loop. -/
def select (d : RGB8 → RGB8 → ℚ) (tolerance : ℚ) (max_colours : Nat)
    (image : List RGB8) : List RGB8 :=
  selectLoop d ((tolerance / 100) * 765) max_colours (unique_and_sort image) []

end SortSelect

/-!
## `HeuristicSorsel` (selection.rs)
-/

/-- `RunData` (selection.rs). -/
structure RunData where
  palette : List RGB8
  score : ℚ

namespace HeuristicSorsel

/-- The selection loop of `HeuristicSorsel::compute_once`; identical to
`SortSelect` but walking `(colour, count)` pairs. -/
def computeLoop (d : RGB8 → RGB8 → ℚ) (tolerance : ℚ) (max_colours : Nat) :
    List (RGB8 × Nat) → List RGB8 → List RGB8
  | [], selected_colors => selected_colors
  | (sorted_color, _) :: rest, selected_colors =>
    if max_colours ≤ selected_colors.length then selected_colors
    else if selected_colors.all fun selected_color =>
        decide (tolerance < d selected_color sorted_color) then
      computeLoop d tolerance max_colours rest (selected_colors ++ [sorted_color])
    else computeLoop d tolerance max_colours rest selected_colors

/-- The least difference of `color` to the selected palette, with the
`f32::MAX` start and `diff.max(0.0) < min_diff` update of the source. -/
def minDiffOf (d : RGB8 → RGB8 → ℚ) (selected_colors : List RGB8)
    (color : RGB8) : ℚ :=
  selected_colors.foldl
    (fun min_diff selected =>
      if max (d selected color) 0 < min_diff then d selected color else min_diff)
    fmax

/-- `HeuristicSorsel::compute_once`: select at the given tolerance, then
score `Σ count * min_diff` over the histogram. -/
def compute_once (d : RGB8 → RGB8 → ℚ) (colors : List (RGB8 × Nat))
    (max_colours : Nat) (tolerance : ℚ) : RunData :=
  let tol := (tolerance / 100) * 765
  let selected_colors := computeLoop d tol max_colours colors []
  let score := colors.foldl
    (fun sc p => sc + minDiffOf d selected_colors p.1 * (p.2 : ℚ)) 0
  ⟨selected_colors, score⟩

/-- The tolerance-search loop of `HeuristicSorsel::select`, fuelled by the
remaining attempts.  The `0.01` epsilon is taken exactly (the `f32`
constant differs from 1/100 by under 3e-10; only the number of halvings
depends on it). -/
def heuristicLoop (d : RGB8 → RGB8 → ℚ) (colors : List (RGB8 × Nat))
    (max_colours : Nat) : Nat → ℚ → ℚ → RunData → RunData
  | 0, _, _, best => best
  | fuel + 1, tolerance, variance, best =>
    let higher := tolerance + variance
    let lower := tolerance - variance
    let run_up := compute_once d colors max_colours higher
    let run_down := compute_once d colors max_colours lower
    if best.score ≤ run_up.score ∧ best.score ≤ run_down.score then
      if 1 / 100 < variance then
        heuristicLoop d colors max_colours fuel tolerance (variance / 2) best
      else best
    else if run_up.score < run_down.score then
      heuristicLoop d colors max_colours fuel higher variance run_up
    else heuristicLoop d colors max_colours fuel lower variance run_down

/-- `HeuristicSorsel::select`: start from `RunData { palette: vec![], score: f32::MAX }`. -/
def select (d : RGB8 → RGB8 → ℚ) (tolerance variance : ℚ)
    (max_attempts max_colours : Nat) (image : List RGB8) : List RGB8 :=
  (heuristicLoop d (unique_and_sort_counts image) max_colours max_attempts
    tolerance variance ⟨[], fmax⟩).palette

end HeuristicSorsel

/-!
## K-means (nih_kmeans.rs)

`f32` RGB vectors are `RGBq`; `vector_diff_2_norm` takes a square root,
which is strictly monotone on nonnegatives, so every comparison of norms
is modelled by the squared norm.
-/

/-- `RGB<f32>` vectors. -/
@[ext]
structure RGBq where
  r : ℚ
  g : ℚ
  b : ℚ
deriving DecidableEq, Repr

/-- Conversion `RGB8 → RGB<f32>` (`v.into()`). -/
def toQ (c : RGB8) : RGBq := ⟨c.r.val, c.g.val, c.b.val⟩

/-- Squared Euclidean norm of `vector_diff v1 v2`; the source compares
`vector_diff_2_norm = sqrt` of this. -/
def normSq (v1 v2 : RGBq) : ℚ :=
  (v1.r - v2.r) ^ 2 + (v1.g - v2.g) ^ 2 + (v1.b - v2.b) ^ 2

namespace KMeans

/-- `KMeans::closest_centroid`: `min_by` over the centroids, which keeps
the first of equally-near centroids. -/
def closest_centroid (centroids : List RGBq) (v : RGBq) : RGBq :=
  match centroids with
  | [] => ⟨0, 0, 0⟩
  | c :: rest =>
    rest.foldl (fun acc x => if normSq x v < normSq acc v then x else acc) c

/-- Distance (squared) of a sample to its nearest existing centroid. -/
def distToNearest (centroids : List RGBq) (s : RGB8) : ℚ :=
  normSq (toQ s) (closest_centroid centroids (toQ s))

/-- The `max_by` of the seeding loop: the sample farthest from its nearest
centroid; `max_by` keeps the last of equally-far samples. -/
def maxBySample (samples : List RGB8) (centroids : List RGBq) : RGB8 :=
  match samples with
  | [] => default
  | s :: rest =>
    rest.foldl
      (fun acc x =>
        if distToNearest centroids x < distToNearest centroids acc then acc else x)
      s

/-- The `while centroids.len() < k` loop of `get_centroid_seeds_simple`,
fuelled (`k` steps always suffice). -/
def seedLoop (samples : List RGB8) (k : Nat) : Nat → List RGBq → List RGBq
  | 0, centroids => centroids
  | fuel + 1, centroids =>
    if centroids.length < k then
      seedLoop samples k fuel (centroids ++ [toQ (maxBySample samples centroids)])
    else centroids

/-- `KMeans::get_centroid_seeds_simple` (rand feature disabled, so the
initial index is 0). -/
def get_centroid_seeds_simple (samples : List RGB8) (k : Nat) : List RGBq :=
  if samples.length ≤ k then samples.map toQ
  else seedLoop samples k k [toQ (samples.headD default)]

/-- First-occurrence deduplication; models one fixed iteration order of
the `HashMap<HashableRGBF, Vec<RGB8>>` cluster map (keys are `f32` bit
triples, i.e. the centroid values themselves). -/
def uniqKeysAux (seen : List RGBq) : List RGBq → List RGBq
  | [] => []
  | x :: xs => if x ∈ seen then uniqKeysAux seen xs else x :: uniqKeysAux (x :: seen) xs

/-- `vector_avg`: component-wise mean of the members of a cluster. -/
def vector_avg (vs : List RGB8) : RGBq :=
  let summed := vs.foldl
    (fun acc elem => ⟨acc.r + (toQ elem).r, acc.g + (toQ elem).g, acc.b + (toQ elem).b⟩)
    (⟨0, 0, 0⟩ : RGBq)
  ⟨summed.r / (vs.length : ℚ), summed.g / (vs.length : ℚ), summed.b / (vs.length : ℚ)⟩

/-- One refinement round of `get_k_colors`: group the samples by nearest
centroid, then replace the centroids by the cluster means. -/
def iterOnce (samples : List RGB8) (centroids : List RGBq) : List RGBq :=
  let f := fun s => closest_centroid centroids (toQ s)
  let keys := uniqKeysAux [] (samples.map f)
  keys.map fun key => vector_avg (samples.filter fun s => decide (f s = key))

/-- The `for _ in 0..max_iter` refinement loop. -/
def kmeansIter (samples : List RGB8) : Nat → List RGBq → List RGBq
  | 0, centroids => centroids
  | n + 1, centroids => kmeansIter samples n (iterOnce samples centroids)

/-- `f32::round` (half away from zero; all inputs here are nonnegative)
followed by the saturating `as u8` cast. -/
def roundToU8 (q : ℚ) : Fin 256 :=
  ⟨min 255 (q + 1 / 2).floor.toNat, by omega⟩

/-- Final rounding of a centroid to a palette colour. -/
def roundColor (c : RGBq) : RGB8 := ⟨roundToU8 c.r, roundToU8 c.g, roundToU8 c.b⟩

/-- `KMeans::get_k_colors`: seed, refine `max_iter` rounds, round. -/
def get_k_colors (samples : List RGB8) (k : Nat) (max_iter : Nat) : List RGB8 :=
  (kmeansIter samples max_iter (get_centroid_seeds_simple samples k)).map roundColor

end KMeans

/-- The colour stored at pixel position `i` of a byte buffer (statement
vocabulary for the truncation and compaction claims). -/
def tripleAt (bytes : List Nat) (i : Nat) : RGB8 :=
  ⟨⟨bytes.getD (3 * i) 0 % 256, Nat.mod_lt _ (by norm_num)⟩,
    ⟨bytes.getD (3 * i + 1) 0 % 256, Nat.mod_lt _ (by norm_num)⟩,
    ⟨bytes.getD (3 * i + 2) 0 % 256, Nat.mod_lt _ (by norm_num)⟩⟩

/-- Convenience constructor for concrete colours in witnesses. -/
def mkColor (r g b : Nat) : RGB8 :=
  ⟨⟨r % 256, Nat.mod_lt _ (by norm_num)⟩, ⟨g % 256, Nat.mod_lt _ (by norm_num)⟩,
    ⟨b % 256, Nat.mod_lt _ (by norm_num)⟩⟩

/-!
# Lemmas and claim theorems
-/

namespace difference

theorem rgb_symm (a b : RGB8) : rgb a b = rgb b a := by
  unfold rgb
  rw [abs_sub_comm ((a.r.val : ℚ)) _, abs_sub_comm ((a.g.val : ℚ)) _,
    abs_sub_comm ((a.b.val : ℚ)) _]

theorem rgb_nonneg (a b : RGB8) : 0 ≤ rgb a b := by
  unfold rgb
  positivity

theorem channel_cast_le (x : Fin 256) : (x.val : ℚ) ≤ 255 := by
  have h := x.isLt
  have h2 : (x.val : ℚ) ≤ (255 : Nat) := by
    exact_mod_cast Nat.le_of_lt_succ h
  simpa using h2

theorem abs_channel_diff_le (x y : Fin 256) : |(x.val : ℚ) - (y.val : ℚ)| ≤ 255 := by
  have hx := channel_cast_le x
  have hy := channel_cast_le y
  have hx0 : (0 : ℚ) ≤ (x.val : ℚ) := by positivity
  have hy0 : (0 : ℚ) ≤ (y.val : ℚ) := by positivity
  rw [abs_le]
  constructor <;> linarith

theorem rgb_le_765 (a b : RGB8) : rgb a b ≤ 765 := by
  unfold rgb
  have h1 := abs_channel_diff_le a.r b.r
  have h2 := abs_channel_diff_le a.g b.g
  have h3 := abs_channel_diff_le a.b b.b
  linarith

theorem rgb_lt_fmax (a b : RGB8) : rgb a b < fmax := by
  have h1 := rgb_le_765 a b
  have h2 : (765 : ℚ) < fmax := by norm_num [fmax]
  linarith

end difference

theorem color_index_inj {a b : RGB8} (h : color_index a = color_index b) : a = b := by
  unfold color_index at h
  have ha1 := a.r.isLt
  have ha2 := a.g.isLt
  have ha3 := a.b.isLt
  have hb1 := b.r.isLt
  have hb2 := b.g.isLt
  have hb3 := b.b.isLt
  have hv : a.r.val = b.r.val ∧ a.g.val = b.g.val ∧ a.b.val = b.b.val := by omega
  exact RGB8.ext (Fin.ext hv.1) (Fin.ext hv.2.1) (Fin.ext hv.2.2)

/-- A table index that is not the `color_index` of any processed colour is
left unchanged by `map_selected`. -/
theorem map_selected_unchanged (w : Nat) (d : RGB8 → RGB8 → ℚ) (palette : List RGB8) :
    ∀ (sorted : List RGB8) (table : Nat → Nat) (j : Nat),
      (∀ c ∈ sorted, color_index c ≠ j) →
      map_selected w d palette sorted table j = table j
  | [], table, j, _ => rfl
  | colour :: rest, table, j, h => by
    have hr := map_selected_unchanged w d palette rest
      (fun j2 => if j2 = color_index colour then
        fromUsize w (selScan d colour palette 0 fmax usizeMax).2 else table j2) j
      (fun c hc => h c (List.mem_cons_of_mem _ hc))
    unfold map_selected
    rw [hr]
    have hne : j ≠ color_index colour := fun he => h colour (List.mem_cons_self _ _) he.symm
    simp [hne]

/-- The table entry of a processed colour after `map_selected` is the
result of the palette scan for that colour. -/
theorem map_selected_get (w : Nat) (d : RGB8 → RGB8 → ℚ) (palette : List RGB8) :
    ∀ (sorted : List RGB8) (table : Nat → Nat) (c : RGB8), c ∈ sorted →
      map_selected w d palette sorted table (color_index c) =
        fromUsize w (selScan d c palette 0 fmax usizeMax).2
  | [], _, _, hmem => absurd hmem (List.not_mem_nil _)
  | colour :: rest, table, c, hmem => by
    by_cases hc : c ∈ rest
    · exact map_selected_get w d palette rest _ c hc
    · have hceq : c = colour := by
        rcases List.mem_cons.1 hmem with h | h
        · exact h
        · exact absurd h hc
      subst hceq
      unfold map_selected
      rw [map_selected_unchanged w d palette rest _ (color_index c)
        (fun c2 hc2 he => hc (color_index_inj he ▸ hc2))]
      simp

theorem fromUsize_usizeMax_eight : fromUsize 8 usizeMax = 255 := by
  norm_num [fromUsize, usizeMax]

theorem bump_mem_fst (px : RGB8) :
    ∀ (m : List (RGB8 × Nat)) (x : RGB8),
      (x ∈ (bump px m).map Prod.fst) ↔ x = px ∨ x ∈ m.map Prod.fst
  | [], x => by simp [bump]
  | (c, n) :: rest, x => by
    by_cases hc : c = px
    · subst hc
      simp [bump]
    · have ih := bump_mem_fst px rest x
      simp only [bump, if_neg hc, List.map_cons, List.mem_cons] at *
      tauto

theorem countPixels_foldl_mem :
    ∀ (l : List RGB8) (acc : List (RGB8 × Nat)) (x : RGB8),
      (x ∈ (l.foldl (fun a px => bump px a) acc).map Prod.fst) ↔
        x ∈ l ∨ x ∈ acc.map Prod.fst
  | [], acc, x => by simp
  | p :: rest, acc, x => by
    have ih := countPixels_foldl_mem rest (bump p acc) x
    have hb := bump_mem_fst p acc x
    simp only [List.foldl_cons, List.mem_cons]
    rw [ih, hb]
    tauto

theorem mem_countPixels (rgb : List RGB8) (x : RGB8) :
    (x ∈ (countPixels rgb).map Prod.fst) ↔ x ∈ rgb := by
  unfold countPixels
  rw [countPixels_foldl_mem rgb [] x]
  simp

theorem mem_unique_and_sort (rgb : List RGB8) (x : RGB8) :
    x ∈ unique_and_sort rgb ↔ x ∈ rgb := by
  unfold unique_and_sort SortSelect.sort
  rw [← mem_countPixels rgb x]
  constructor
  · intro h
    rcases List.mem_map.1 h with ⟨p, hp, he⟩
    exact List.mem_map.2 ⟨p, (List.perm_insertionSort histLe _).mem_iff.1 hp, he⟩
  · intro h
    rcases List.mem_map.1 h with ⟨p, hp, he⟩
    exact List.mem_map.2 ⟨p, (List.perm_insertionSort histLe _).mem_iff.2 hp, he⟩

theorem writeIndices_length (table : Nat → Nat) :
    ∀ (rgb : List RGB8) (buffer : List Nat) (start : Nat),
      (writeIndices table rgb buffer start).length = buffer.length
  | [], _, _ => rfl
  | color :: rest, buffer, start => by
    unfold writeIndices
    rw [writeIndices_length table rest _ (start + 1), List.length_set]

theorem writeIndices_getD_lt (table : Nat → Nat) :
    ∀ (rgb : List RGB8) (buffer : List Nat) (start p : Nat), p < start →
      (writeIndices table rgb buffer start).getD p 0 = buffer.getD p 0
  | [], _, _, _, _ => rfl
  | color :: rest, buffer, start, p, hp => by
    unfold writeIndices
    rw [writeIndices_getD_lt table rest _ (start + 1) p (Nat.lt_succ_of_lt hp)]
    rw [List.getD_eq_getElem?_getD, List.getD_eq_getElem?_getD,
      List.getElem?_set_ne (by omega)]

theorem writeIndices_getD (table : Nat → Nat) :
    ∀ (rgb : List RGB8) (buffer : List Nat) (start i : Nat),
      i < rgb.length → start + rgb.length ≤ buffer.length →
      (writeIndices table rgb buffer start).getD (start + i) 0 =
        table (color_index (rgb.getD i default))
  | [], _, _, i, hi, _ => absurd hi (by simp)
  | color :: rest, buffer, start, i, hi, hlen => by
    unfold writeIndices
    cases i with
    | zero =>
      have hstart : start < buffer.length := by
        simp only [List.length_cons] at hlen
        omega
      rw [writeIndices_getD_lt table rest _ (start + 1) (start + 0) (by omega)]
      rw [List.getD_eq_getElem?_getD]
      have : (buffer.set start (table (color_index color)))[start + 0]? =
          some (table (color_index color)) := by
        simpa using List.getElem?_set_eq_of_lt (table (color_index color)) hstart
      rw [this]
      rfl
    | succ n =>
      have h1 : start + (n + 1) = (start + 1) + n := by omega
      rw [h1]
      rw [writeIndices_getD table rest _ (start + 1) n
        (by simp only [List.length_cons] at hi; omega)
        (by simp only [List.length_cons] at hlen; rw [List.length_set]; omega)]
      rfl

/-- C9 (implicit): `color_index` is always below 16,777,216 and the map
allocated by `from_parts` has exactly 16,777,216 entries, so every table
read in `map`, `map_no_recolor` and `map_over` and every write in
`map_selected` is in bounds. -/
theorem c9_lookup_index_safety :
    (∀ c : RGB8, color_index c < 16777216) ∧
      from_parts_vec.length = 16777216 ∧
      (∀ c : RGB8, color_index c < from_parts_vec.length) := by
  have hlen : from_parts_vec.length = 16777216 := by
    norm_num [from_parts_vec]
  have hidx : ∀ c : RGB8, color_index c < 16777216 := by
    intro c
    have h1 := c.r.isLt
    have h2 := c.g.isLt
    have h3 := c.b.isLt
    unfold color_index
    omega
  exact ⟨hidx, hlen, fun c => hlen ▸ hidx c⟩

/-- C7: `recolor` replaces the palette with a freshly selected one (the
result does not depend on the previous palette) and leaves the lookup
table, the difference function, the tolerance and the configured maximum
unchanged. -/
theorem c7_recolor_frame :
    ∀ (s : Squasher) (image : List RGB8) (p : List RGB8),
      (s.recolor image).map = s.map ∧
      (s.recolor image).difference_fn = s.difference_fn ∧
      (s.recolor image).tolerance_percent = s.tolerance_percent ∧
      (s.recolor image).max_colours_min1 = s.max_colours_min1 ∧
      (s.recolor image).palette = s.select_colors (unique_and_sort image) ∧
      (({ s with palette := p } : Squasher).recolor image).palette =
        (s.recolor image).palette := by
  intro s image p
  exact ⟨rfl, rfl, rfl, rfl, rfl, rfl⟩

/-- C5 counterexample: a 4-byte buffer (length not a multiple of 3) is not
rejected.  The `From<&[u8]>` conversion silently truncates it to one
pixel, dropping the trailing byte, and `Squasher::map` then succeeds; no
`MalformedBuffer` error exists anywhere in the code. -/
theorem c5_counterexample :
    (4 : Nat) % 3 = 1 ∧
    as_rgb [10, 20, 30, 40] = [⟨10, 20, 30⟩] ∧
    (Squasher.mapPixels 8 (Squasher.from_parts 255 difference.rgb 1)
      (as_rgb [10, 20, 30, 40]) [0]).isSome = true := by
  refine ⟨rfl, ?_, rfl⟩
  decide

/-- C5 amended: for every byte pixel buffer, the conversion to pixels
keeps exactly `len / 3` pixels, pixel `i` being the triple at bytes
`3*i .. 3*i+2`; bytes past the last full triple are ignored (truncation,
no `MalformedBuffer` error). -/
theorem c5_truncation :
    ∀ bytes : List Nat,
      (as_rgb bytes).length = bytes.length / 3 ∧
      (∀ i, i < bytes.length / 3 → (as_rgb bytes).getD i default = tripleAt bytes i)
  | [] => by constructor <;> simp [as_rgb]
  | [b0] => by constructor <;> simp [as_rgb]
  | [b0, b1] => by constructor <;> simp [as_rgb]
  | b0 :: b1 :: b2 :: rest => by
    have ih := c5_truncation rest
    have hlen3 : (b0 :: b1 :: b2 :: rest).length / 3 = rest.length / 3 + 1 := by
      simp only [List.length_cons]
      omega
    constructor
    · show (as_rgb (b0 :: b1 :: b2 :: rest)).length = _
      unfold as_rgb
      simp only [List.length_cons, ih.1]
      omega
    · intro i hi
      cases i with
      | zero =>
        show (as_rgb (b0 :: b1 :: b2 :: rest)).getD 0 default = _
        unfold as_rgb tripleAt
        simp
      | succ n =>
        rw [hlen3] at hi
        have hrec := ih.2 n (by omega)
        show (as_rgb (b0 :: b1 :: b2 :: rest)).getD (n + 1) default = _
        unfold as_rgb
        rw [List.getD_cons_succ, hrec]
        apply RGB8.ext <;> apply Fin.ext
        · show rest.getD (3 * n) 0 % 256 =
            (b0 :: b1 :: b2 :: rest).getD (3 * (n + 1)) 0 % 256
          rw [show 3 * (n + 1) = 3 * n + 3 from by omega]
          rfl
        · show rest.getD (3 * n + 1) 0 % 256 =
            (b0 :: b1 :: b2 :: rest).getD (3 * (n + 1) + 1) 0 % 256
          rw [show 3 * (n + 1) + 1 = (3 * n + 1) + 3 from by omega]
          rfl
        · show rest.getD (3 * n + 2) 0 % 256 =
            (b0 :: b1 :: b2 :: rest).getD (3 * (n + 1) + 2) 0 % 256
          rw [show 3 * (n + 1) + 2 = (3 * n + 2) + 3 from by omega]
          rfl

/-- C5 amended, witnessed at the concrete 4-byte buffer of the
counterexample. -/
theorem c5_truncation_witness :
    (as_rgb [10, 20, 30, 40]).length = 1 ∧
      (as_rgb [10, 20, 30, 40]).getD 0 default = tripleAt [10, 20, 30, 40] 0 :=
  ⟨(c5_truncation [10, 20, 30, 40]).1,
    (c5_truncation [10, 20, 30, 40]).2 0 (by norm_num)⟩

/-- C10 (implicit): with an empty palette, a safe-mode `map` does not
fail.  `map_selected` records `T::from_usize(usize::MAX)` (255 for `u8`)
for every unique colour of the image, so every emitted index is this
out-of-range sentinel. -/
theorem c10_empty_palette_sentinel (s : Squasher) (rgb : List RGB8)
    (buffer : List Nat)
    (hpal : s.palette = []) (hlen : rgb.length ≤ buffer.length) :
    ∃ out s2, Squasher.mapPixels 8 s rgb buffer = some (out, s2) ∧
      fromUsize 8 usizeMax = 255 ∧
      (∀ c ∈ unique_and_sort rgb, s2.map (color_index c) = 255) ∧
      (∀ i, i < rgb.length → out.getD i 0 = 255) := by
  have hnosmall : ¬ buffer.length * 3 < rgb.length := by omega
  have htable : ∀ c ∈ unique_and_sort rgb,
      map_selected 8 s.difference_fn s.palette (unique_and_sort rgb) s.map
        (color_index c) = 255 := by
    intro c hc
    rw [map_selected_get 8 s.difference_fn s.palette (unique_and_sort rgb) s.map c hc]
    rw [hpal]
    show fromUsize 8 usizeMax = 255
    exact fromUsize_usizeMax_eight
  have hmap : Squasher.mapPixels 8 s rgb buffer = some
      (writeIndices
        (map_selected 8 s.difference_fn s.palette (unique_and_sort rgb) s.map)
        rgb buffer 0,
       { s with map :=
          map_selected 8 s.difference_fn s.palette (unique_and_sort rgb) s.map }) := by
    unfold Squasher.mapPixels
    rw [if_neg hnosmall, if_pos hlen]
  refine ⟨_, _, hmap, fromUsize_usizeMax_eight, htable, ?_⟩
  intro i hi
  have hw := writeIndices_getD
    (map_selected 8 s.difference_fn s.palette (unique_and_sort rgb) s.map)
    rgb buffer 0 i hi (by omega)
  simp only [Nat.zero_add] at hw
  rw [hw]
  apply htable
  rw [mem_unique_and_sort]
  rw [List.getD_eq_getElem rgb default hi]
  exact List.get_mem rgb i hi

/-- Full characterisation of the palette scan of `map_selected`: either no
palette entry beats the incoming `min_diff` (then the accumulator pair is
returned), or the result points at the first position achieving the
minimum difference, which also beats the incoming `min_diff`. -/
theorem selScan_spec (d : RGB8 → RGB8 → ℚ) (c : RGB8) :
    ∀ (l : List RGB8) (i : Nat) (md : ℚ) (mi : Nat),
      (∀ p ∈ l, 0 ≤ d c p) →
      ((∀ p ∈ l, md ≤ d c p) ∧ selScan d c l i md mi = (md, mi)) ∨
      (∃ k, ∃ h : k < l.length,
        (selScan d c l i md mi).2 = i + k ∧
        (selScan d c l i md mi).1 = d c (l.get ⟨k, h⟩) ∧
        d c (l.get ⟨k, h⟩) < md ∧
        (∀ t, ∀ ht : t < l.length, d c (l.get ⟨k, h⟩) ≤ d c (l.get ⟨t, ht⟩)) ∧
        (∀ t, ∀ ht : t < k, d c (l.get ⟨k, h⟩) < d c (l.get ⟨t, Nat.lt_trans ht h⟩))) := by
  intro l
  induction l with
  | nil =>
    intro i md mi _
    left
    exact ⟨by simp, rfl⟩
  | cons p rest ih =>
    intro i md mi hnn
    have hp0 : 0 ≤ d c p := hnn p (List.mem_cons_self _ _)
    have hmax : max (d c p) 0 = d c p := max_eq_left hp0
    have hnr : ∀ q ∈ rest, 0 ≤ d c q := fun q hq => hnn q (List.mem_cons_of_mem _ hq)
    by_cases hlt : max (d c p) 0 < md
    · have hsel : selScan d c (p :: rest) i md mi =
          selScan d c rest (i + 1) (d c p) i := by
        simp only [selScan]
        rw [if_pos hlt]
      have hplt : d c p < md := hmax ▸ hlt
      rcases ih (i + 1) (d c p) i hnr with ⟨hall, heq⟩ | ⟨k, hk, h2, h1, hlt2, hle, hbef⟩
      · right
        have h0 : (0 : Nat) < (p :: rest).length := by simp
        refine ⟨0, h0, ?_, ?_, ?_, ?_, ?_⟩
        · rw [hsel, heq]
          rfl
        · rw [hsel, heq]
          rfl
        · exact hplt
        · intro t ht
          cases t with
          | zero => exact le_refl _
          | succ u =>
            exact hall _ (List.get_mem rest u (Nat.lt_of_succ_lt_succ ht))
        · intro t ht
          exact absurd ht (Nat.not_lt_zero t)
      · right
        have hk2 : k + 1 < (p :: rest).length := by
          simp only [List.length_cons]
          omega
        refine ⟨k + 1, hk2, ?_, ?_, ?_, ?_, ?_⟩
        · rw [hsel, h2]
          omega
        · rw [hsel, h1]
          rfl
        · exact lt_trans hlt2 hplt
        · intro t ht
          cases t with
          | zero => exact le_of_lt hlt2
          | succ u => exact hle u (Nat.lt_of_succ_lt_succ ht)
        · intro t ht
          cases t with
          | zero => exact hlt2
          | succ u => exact hbef u (Nat.lt_of_succ_lt_succ ht)
    · have hsel : selScan d c (p :: rest) i md mi =
          selScan d c rest (i + 1) md mi := by
        simp only [selScan]
        rw [if_neg hlt]
      have hge : md ≤ d c p := by
        rw [hmax] at hlt
        exact not_lt.1 hlt
      rcases ih (i + 1) md mi hnr with ⟨hall, heq⟩ | ⟨k, hk, h2, h1, hlt2, hle, hbef⟩
      · left
        constructor
        · intro q hq
          rcases List.mem_cons.1 hq with h | h
          · rw [h]
            exact hge
          · exact hall q h
        · rw [hsel, heq]
      · right
        have hk2 : k + 1 < (p :: rest).length := by
          simp only [List.length_cons]
          omega
        refine ⟨k + 1, hk2, ?_, ?_, ?_, ?_, ?_⟩
        · rw [hsel, h2]
          omega
        · rw [hsel, h1]
          rfl
        · exact hlt2
        · intro t ht
          cases t with
          | zero => exact le_trans (le_of_lt hlt2) hge
          | succ u => exact hle u (Nat.lt_of_succ_lt_succ ht)
        · intro t ht
          cases t with
          | zero => exact lt_of_lt_of_le hlt2 hge
          | succ u => exact hbef u (Nat.lt_of_succ_lt_succ ht)

/-- C1: for a non-empty palette and any colour `c` of the processed
unique-colour list, after `map_selected` the table entry at
`color_index c` is the smallest palette index at minimum metric distance
to `c` (no entry is strictly closer, and every earlier entry is strictly
farther).  The distances are nonnegative and below `f32::MAX`, as for the
supplied metrics, and the palette fits the index type. -/
theorem c1_nearest_assignment (w : Nat) (d : RGB8 → RGB8 → ℚ)
    (palette sorted : List RGB8) (table : Nat → Nat) (c : RGB8)
    (hmem : c ∈ sorted) (hne : palette ≠ [])
    (hnn : ∀ p ∈ palette, 0 ≤ d c p) (hfm : ∀ p ∈ palette, d c p < fmax)
    (hw : palette.length ≤ 2 ^ w) :
    ∃ i, ∃ h : i < palette.length,
      map_selected w d palette sorted table (color_index c) = i ∧
      (∀ j, ∀ hj : j < palette.length,
        d c (palette.get ⟨i, h⟩) ≤ d c (palette.get ⟨j, hj⟩)) ∧
      (∀ j, ∀ hj : j < i,
        d c (palette.get ⟨i, h⟩) < d c (palette.get ⟨j, Nat.lt_trans hj h⟩)) := by
  have hms := map_selected_get w d palette sorted table c hmem
  rcases selScan_spec d c palette 0 fmax usizeMax hnn with ⟨hall, _⟩ |
    ⟨k, hk, h2, h1, hlt2, hle, hbef⟩
  · rcases palette with _ | ⟨p, rest⟩
    · exact absurd rfl hne
    · exact absurd (hall p (List.mem_cons_self _ _))
        (not_le.2 (hfm p (List.mem_cons_self _ _)))
  · refine ⟨k, hk, ?_, hle, hbef⟩
    rw [hms, h2]
    show fromUsize w (0 + k) = k
    simp only [Nat.zero_add]
    exact Nat.mod_eq_of_lt (lt_of_lt_of_le hk hw)

/-- C1 witnessed: a two-colour palette, one unique image colour, the
`rgb` metric, `u8` indices. -/
theorem c1_witness :
    ∃ i, ∃ h : i < ([⟨0, 0, 0⟩, ⟨10, 10, 10⟩] : List RGB8).length,
      map_selected 8 difference.rgb [⟨0, 0, 0⟩, ⟨10, 10, 10⟩] [⟨9, 9, 9⟩]
        (fun _ => 0) (color_index ⟨9, 9, 9⟩) = i ∧
      (∀ j, ∀ hj : j < ([⟨0, 0, 0⟩, ⟨10, 10, 10⟩] : List RGB8).length,
        difference.rgb ⟨9, 9, 9⟩
            (([⟨0, 0, 0⟩, ⟨10, 10, 10⟩] : List RGB8).get ⟨i, h⟩) ≤
          difference.rgb ⟨9, 9, 9⟩
            (([⟨0, 0, 0⟩, ⟨10, 10, 10⟩] : List RGB8).get ⟨j, hj⟩)) ∧
      (∀ j, ∀ hj : j < i,
        difference.rgb ⟨9, 9, 9⟩
            (([⟨0, 0, 0⟩, ⟨10, 10, 10⟩] : List RGB8).get ⟨i, h⟩) <
          difference.rgb ⟨9, 9, 9⟩
            (([⟨0, 0, 0⟩, ⟨10, 10, 10⟩] : List RGB8).get ⟨j, Nat.lt_trans hj h⟩)) :=
  c1_nearest_assignment 8 difference.rgb [⟨0, 0, 0⟩, ⟨10, 10, 10⟩] [⟨9, 9, 9⟩]
    (fun _ => 0) ⟨9, 9, 9⟩ (List.mem_singleton.2 rfl) (by simp)
    (fun p _ => difference.rgb_nonneg _ p)
    (fun p _ => difference.rgb_lt_fmax _ p) (by norm_num)

/-- C10 witnessed on a one-pixel image with an empty palette. -/
theorem c10_witness :
    ∃ out s2,
      Squasher.mapPixels 8 (Squasher.from_parts 255 difference.rgb 1)
        [⟨5, 6, 7⟩] [9] = some (out, s2) ∧
      fromUsize 8 usizeMax = 255 ∧
      (∀ c ∈ unique_and_sort [⟨5, 6, 7⟩], s2.map (color_index c) = 255) ∧
      (∀ i, i < ([⟨5, 6, 7⟩] : List RGB8).length → out.getD i 0 = 255) :=
  c10_empty_palette_sentinel (Squasher.from_parts 255 difference.rgb 1)
    [⟨5, 6, 7⟩] [9] rfl (by norm_num)

theorem getD_set_ne (l : List Nat) (i j v : Nat) (h : i ≠ j) :
    (l.set i v).getD j 0 = l.getD j 0 := by
  rw [List.getD_eq_getElem?_getD, List.getD_eq_getElem?_getD, List.getElem?_set_ne h]

theorem getD_set_eq_of_lt (l : List Nat) (i v : Nat) (h : i < l.length) :
    (l.set i v).getD i 0 = v := by
  rw [List.getD_eq_getElem?_getD, List.getElem?_set_eq_of_lt v h]
  rfl

theorem mapOverGo_length (table : Nat → Nat) :
    ∀ (fuel : Nat) (image : List Nat) (idx : Nat),
      (mapOverGo table image idx fuel).length = image.length
  | 0, _, _ => rfl
  | fuel + 1, image, idx => by
    unfold mapOverGo
    rw [mapOverGo_length table fuel _ (idx + 1), List.length_set]

/-- Positions below the write frontier are untouched by the rest of the
`map_over` loop. -/
theorem mapOverGo_getD_lt (table : Nat → Nat) :
    ∀ (fuel : Nat) (image : List Nat) (idx p : Nat), p < idx →
      (mapOverGo table image idx fuel).getD p 0 = image.getD p 0
  | 0, _, _, _, _ => rfl
  | fuel + 1, image, idx, p, hp => by
    unfold mapOverGo
    rw [mapOverGo_getD_lt table fuel _ (idx + 1) p (Nat.lt_succ_of_lt hp)]
    exact getD_set_ne image idx p _ (by omega)

/-- The core compaction property: at every step the three bytes read lie
at positions `≥ 3*idx ≥ idx`, beyond every write made so far, so each
output byte is the table entry of the pixel of the original buffer. -/
theorem mapOverGo_spec (table : Nat → Nat) :
    ∀ (fuel : Nat) (image orig : List Nat) (idx : Nat),
      image.length = orig.length →
      (∀ q, idx ≤ q → image.getD q 0 = orig.getD q 0) →
      3 * (idx + fuel) ≤ orig.length →
      ∀ t, t < fuel →
        (mapOverGo table image idx fuel).getD (idx + t) 0 =
          table (color_index (tripleAt orig (idx + t)))
  | 0, _, _, _, _, _, _, t, ht => absurd ht (Nat.not_lt_zero t)
  | fuel + 1, image, orig, idx, hlen, hagree, hroom, t, ht => by
    unfold mapOverGo
    have hread0 : image.getD (idx * 3) 0 = orig.getD (3 * idx) 0 := by
      rw [Nat.mul_comm idx 3]
      exact hagree (3 * idx) (by omega)
    have hread1 : image.getD (idx * 3 + 1) 0 = orig.getD (3 * idx + 1) 0 := by
      rw [Nat.mul_comm idx 3]
      exact hagree (3 * idx + 1) (by omega)
    have hread2 : image.getD (idx * 3 + 2) 0 = orig.getD (3 * idx + 2) 0 := by
      rw [Nat.mul_comm idx 3]
      exact hagree (3 * idx + 2) (by omega)
    have hcolor :
        (⟨⟨image.getD (idx * 3) 0 % 256, Nat.mod_lt _ (by norm_num)⟩,
          ⟨image.getD (idx * 3 + 1) 0 % 256, Nat.mod_lt _ (by norm_num)⟩,
          ⟨image.getD (idx * 3 + 2) 0 % 256, Nat.mod_lt _ (by norm_num)⟩⟩ : RGB8) =
        tripleAt orig idx := by
      unfold tripleAt
      exact RGB8.ext (Fin.ext (by simp only [hread0])) (Fin.ext (by simp only [hread1]))
        (Fin.ext (by simp only [hread2]))
    have hidxlen : idx < image.length := by omega
    cases t with
    | zero =>
      rw [mapOverGo_getD_lt table fuel _ (idx + 1) (idx + 0) (by omega)]
      rw [hcolor]
      exact getD_set_eq_of_lt image idx _ hidxlen
    | succ u =>
      have hrec := mapOverGo_spec table fuel
        (image.set idx
          (table (color_index (⟨⟨image.getD (idx * 3) 0 % 256, Nat.mod_lt _ (by norm_num)⟩,
            ⟨image.getD (idx * 3 + 1) 0 % 256, Nat.mod_lt _ (by norm_num)⟩,
            ⟨image.getD (idx * 3 + 2) 0 % 256, Nat.mod_lt _ (by norm_num)⟩⟩ : RGB8))))
        orig (idx + 1)
        (by rw [List.length_set]; exact hlen)
        (by
          intro q hq
          rw [getD_set_ne image idx q _ (by omega)]
          exact hagree q (by omega))
        (by omega)
        u (Nat.lt_of_succ_lt_succ ht)
      have harith : idx + (u + 1) = (idx + 1) + u := by omega
      rw [harith, hrec]

/-- C6: for a byte buffer whose length is a multiple of 3, `map_over`
returns `len / 3` and writes, at every pixel position `idx < len / 3`,
the table entry (after repopulation from the unique colours of the
buffer) of the original pixel triple at bytes `3*idx .. 3*idx+2` into
byte `idx`: the left-to-right writes never clobber a pixel before it is
read.  The buffer keeps its length. -/
theorem c6_map_over_compaction (s : Squasher) (image : List Nat)
    (h3 : 3 ∣ image.length) :
    (s.map_over image).1.2 = image.length / 3 ∧
    (s.map_over image).1.1.length = image.length ∧
    (∀ idx, idx < image.length / 3 →
      (s.map_over image).1.1.getD idx 0 =
        (map_selected 8 s.difference_fn s.palette (unique_and_sort (as_rgb image))
          s.map) (color_index (tripleAt image idx))) := by
  refine ⟨rfl, mapOverGo_length _ _ _ _, ?_⟩
  intro idx hidx
  have hrun := mapOverGo_spec
    (map_selected 8 s.difference_fn s.palette (unique_and_sort (as_rgb image)) s.map)
    (image.length / 3) image image 0 rfl (fun q _ => rfl)
    (by omega) idx hidx
  simpa using hrun

/-- C6 witnessed on a concrete 6-byte buffer (two pixels). -/
theorem c6_witness :
    ((Squasher.from_parts 255 difference.rgb 1).map_over
        [1, 2, 3, 4, 5, 6]).1.2 = 2 ∧
    ((Squasher.from_parts 255 difference.rgb 1).map_over
        [1, 2, 3, 4, 5, 6]).1.1.getD 0 0 =
      (map_selected 8 (Squasher.from_parts 255 difference.rgb 1).difference_fn
        (Squasher.from_parts 255 difference.rgb 1).palette
        (unique_and_sort (as_rgb [1, 2, 3, 4, 5, 6]))
        (Squasher.from_parts 255 difference.rgb 1).map)
        (color_index (tripleAt [1, 2, 3, 4, 5, 6] 0)) := by
  have h := c6_map_over_compaction (Squasher.from_parts 255 difference.rgb 1)
    [1, 2, 3, 4, 5, 6] (by norm_num)
  exact ⟨h.1, h.2.2 0 (by norm_num)⟩


/-- The greedy loop preserves pairwise separation of the selected list:
every accepted candidate differs from every already-selected colour by
more than the threshold. -/
theorem selectLoop_pairwise (d : RGB8 → RGB8 → ℚ) (tol : ℚ) (max_colours : Nat) :
    ∀ (cands sel : List RGB8),
      List.Pairwise (fun p q => tol < d p q) sel →
      List.Pairwise (fun p q => tol < d p q)
        (SortSelect.selectLoop d tol max_colours cands sel)
  | [], sel, h => h
  | c :: rest, sel, h => by
    unfold SortSelect.selectLoop
    by_cases h1 : max_colours ≤ sel.length
    · rw [if_pos h1]
      exact h
    · rw [if_neg h1]
      by_cases h2 : (sel.all fun selected_color => decide (tol < d selected_color c)) = true
      · rw [if_pos h2]
        apply selectLoop_pairwise d tol max_colours rest
        rw [List.pairwise_append]
        refine ⟨h, List.pairwise_singleton _ _, ?_⟩
        intro s hs q hq
        rw [List.mem_singleton] at hq
        subst hq
        exact of_decide_eq_true (List.all_eq_true.1 h2 s hs)
      · rw [if_neg h2]
        exact selectLoop_pairwise d tol max_colours rest sel h

/-- One unfolding step of the greedy loop, as a propositional equation. -/
theorem selectLoop_cons (d : RGB8 → RGB8 → ℚ) (tol : ℚ) (max_colours : Nat)
    (c : RGB8) (cands sel : List RGB8) :
    SortSelect.selectLoop d tol max_colours (c :: cands) sel =
      if max_colours ≤ sel.length then sel
      else if (sel.all fun selected_color => decide (tol < d selected_color c)) = true then
        SortSelect.selectLoop d tol max_colours cands (sel ++ [c])
      else SortSelect.selectLoop d tol max_colours cands sel := rfl

/-- C2: any two distinct entries of the palette returned by the greedy
sort/select differ by more than `(tolerance_percent/100) * 765` under a
symmetric metric; and a candidate is accepted into a non-full selection
precisely when its difference to every already-selected colour exceeds
that threshold. -/
theorem c2_greedy_tolerance_invariant (d : RGB8 → RGB8 → ℚ)
    (tolerance_percent : ℚ) (max_colours : Nat) (pixels : List RGB8)
    (hsymm : ∀ a b, d a b = d b a) :
    (∀ i j, i < (SortSelect.select d tolerance_percent max_colours pixels).length →
        j < (SortSelect.select d tolerance_percent max_colours pixels).length →
        i ≠ j →
      (tolerance_percent / 100) * 765 <
        d ((SortSelect.select d tolerance_percent max_colours pixels).getD i default)
          ((SortSelect.select d tolerance_percent max_colours pixels).getD j default)) ∧
    (∀ (c : RGB8) (cands sel : List RGB8), ¬ max_colours ≤ sel.length →
      ((∀ s ∈ sel, (tolerance_percent / 100) * 765 < d s c) →
        SortSelect.selectLoop d ((tolerance_percent / 100) * 765) max_colours
            (c :: cands) sel =
          SortSelect.selectLoop d ((tolerance_percent / 100) * 765) max_colours
            cands (sel ++ [c])) ∧
      ((¬ ∀ s ∈ sel, (tolerance_percent / 100) * 765 < d s c) →
        SortSelect.selectLoop d ((tolerance_percent / 100) * 765) max_colours
            (c :: cands) sel =
          SortSelect.selectLoop d ((tolerance_percent / 100) * 765) max_colours
            cands sel)) := by
  constructor
  · have hpw : List.Pairwise (fun p q => (tolerance_percent / 100) * 765 < d p q)
        (SortSelect.select d tolerance_percent max_colours pixels) :=
      selectLoop_pairwise d _ max_colours (unique_and_sort pixels) [] List.Pairwise.nil
    intro i j hi hj hne
    rw [List.getD_eq_getElem _ _ hi, List.getD_eq_getElem _ _ hj]
    rcases Nat.lt_or_ge i j with hij | hij
    · exact List.pairwise_iff_get.1 hpw ⟨i, hi⟩ ⟨j, hj⟩ hij
    · have hji : j < i := Nat.lt_of_le_of_ne hij (Ne.symm hne)
      rw [hsymm]
      exact List.pairwise_iff_get.1 hpw ⟨j, hj⟩ ⟨i, hi⟩ hji
  · intro c cands sel hnotfull
    constructor
    · intro hall
      rw [selectLoop_cons, if_neg hnotfull, if_pos]
      exact List.all_eq_true.2 fun s hs => decide_eq_true (hall s hs)
    · intro hnot
      rw [selectLoop_cons, if_neg hnotfull, if_neg]
      intro hcontra
      exact hnot fun s hs => of_decide_eq_true (List.all_eq_true.1 hcontra s hs)

/-- The greedy selection of the C2 witness image, evaluated. -/
theorem c2_witness_eval :
    SortSelect.select difference.rgb 10 2
        [mkColor 0 0 0, mkColor 200 200 200, mkColor 0 0 0] =
      [mkColor 0 0 0, mkColor 200 200 200] := by
  norm_num [SortSelect.select, SortSelect.selectLoop, unique_and_sort,
    SortSelect.sort, countPixels, bump, List.insertionSort, List.orderedInsert,
    histLe, difference.rgb, List.foldl, mkColor]

/-- C2 witnessed: the two selected colours of a three-pixel image under
the `rgb` metric at tolerance 10 percent are separated by more than the
threshold. -/
theorem c2_witness :
    (10 / 100 : ℚ) * 765 <
      difference.rgb
        ((SortSelect.select difference.rgb 10 2
            [mkColor 0 0 0, mkColor 200 200 200, mkColor 0 0 0]).getD 0 default)
        ((SortSelect.select difference.rgb 10 2
            [mkColor 0 0 0, mkColor 200 200 200, mkColor 0 0 0]).getD 1 default) :=
  (c2_greedy_tolerance_invariant difference.rgb 10 2
      [mkColor 0 0 0, mkColor 200 200 200, mkColor 0 0 0] difference.rgb_symm).1
    0 1 (by rw [c2_witness_eval]; norm_num) (by rw [c2_witness_eval]; norm_num)
    (by norm_num)

/-- C4: the histogram comparator is a total, transitive, antisymmetric
order, so sorting any two permutations of the same histogram (any two
hash-map iteration orders) yields the identical sequence, which is sorted
by count descending with ties by descending R, G, B; hence greedy and
adaptive-search selection see identical inputs and produce identical
palettes. -/
theorem c4_sort_determinism (l1 l2 : List (RGB8 × Nat)) (hperm : List.Perm l1 l2) :
    HeuristicSorsel.sort l1 = HeuristicSorsel.sort l2 ∧
    SortSelect.sort l1 = SortSelect.sort l2 ∧
    List.Sorted histLe (HeuristicSorsel.sort l1) ∧
    (∀ (d : RGB8 → RGB8 → ℚ) (tol : ℚ) (max_colours : Nat),
      SortSelect.selectLoop d tol max_colours (SortSelect.sort l1) [] =
        SortSelect.selectLoop d tol max_colours (SortSelect.sort l2) []) := by
  have hperm2 : List.Perm (List.insertionSort histLe l1) (List.insertionSort histLe l2) :=
    ((List.perm_insertionSort histLe l1).trans hperm).trans
      (List.perm_insertionSort histLe l2).symm
  have heq : List.insertionSort histLe l1 = List.insertionSort histLe l2 :=
    List.eq_of_perm_of_sorted hperm2 (List.sorted_insertionSort histLe l1)
      (List.sorted_insertionSort histLe l2)
  have hsortsel : SortSelect.sort l1 = SortSelect.sort l2 := by
    unfold SortSelect.sort
    rw [heq]
  refine ⟨?_, hsortsel, List.sorted_insertionSort histLe l1, ?_⟩
  · unfold HeuristicSorsel.sort
    rw [heq]
  · intro d tol max_colours
    rw [hsortsel]

/-- C4 witnessed: two iteration orders of the same two-entry histogram
sort to the same sequence, and the greedy loop output agrees. -/
theorem c4_witness :
    HeuristicSorsel.sort [(mkColor 1 1 1, 1), (mkColor 2 2 2, 5)] =
      HeuristicSorsel.sort [(mkColor 2 2 2, 5), (mkColor 1 1 1, 1)] ∧
    SortSelect.selectLoop difference.rgb 10 2
        (SortSelect.sort [(mkColor 1 1 1, 1), (mkColor 2 2 2, 5)]) [] =
      SortSelect.selectLoop difference.rgb 10 2
        (SortSelect.sort [(mkColor 2 2 2, 5), (mkColor 1 1 1, 1)]) [] :=
  ⟨(c4_sort_determinism [(mkColor 1 1 1, 1), (mkColor 2 2 2, 5)]
      [(mkColor 2 2 2, 5), (mkColor 1 1 1, 1)] (by decide)).1,
    (c4_sort_determinism [(mkColor 1 1 1, 1), (mkColor 2 2 2, 5)]
      [(mkColor 2 2 2, 5), (mkColor 1 1 1, 1)] (by decide)).2.2.2
      difference.rgb 10 2⟩

/-- The greedy loop output extends the selected accumulator by a
subsequence of the remaining candidates. -/
theorem selectLoop_shape (d : RGB8 → RGB8 → ℚ) (tol : ℚ) (max_colours : Nat) :
    ∀ (cands sel : List RGB8),
      ∃ t, SortSelect.selectLoop d tol max_colours cands sel = sel ++ t ∧
        List.Sublist t cands
  | [], sel => ⟨[], by simp [SortSelect.selectLoop], List.nil_sublist _⟩
  | c :: rest, sel => by
    rw [selectLoop_cons]
    by_cases h1 : max_colours ≤ sel.length
    · rw [if_pos h1]
      exact ⟨[], by simp, List.nil_sublist _⟩
    · rw [if_neg h1]
      by_cases h2 : (sel.all fun selected_color => decide (tol < d selected_color c)) = true
      · rw [if_pos h2]
        obtain ⟨t, ht, hsub⟩ := selectLoop_shape d tol max_colours rest (sel ++ [c])
        refine ⟨c :: t, ?_, hsub.cons₂ c⟩
        rw [ht]
        simp
      · rw [if_neg h2]
        obtain ⟨t, ht, hsub⟩ := selectLoop_shape d tol max_colours rest sel
        exact ⟨t, ht, hsub.cons c⟩

/-- The greedy loop never exceeds `max_colours`. -/
theorem selectLoop_length_le (d : RGB8 → RGB8 → ℚ) (tol : ℚ) (max_colours : Nat) :
    ∀ (cands sel : List RGB8), sel.length ≤ max_colours →
      (SortSelect.selectLoop d tol max_colours cands sel).length ≤ max_colours
  | [], sel, h => h
  | c :: rest, sel, h => by
    rw [selectLoop_cons]
    by_cases h1 : max_colours ≤ sel.length
    · rw [if_pos h1]
      exact h
    · rw [if_neg h1]
      by_cases h2 : (sel.all fun selected_color => decide (tol < d selected_color c)) = true
      · rw [if_pos h2]
        apply selectLoop_length_le d tol max_colours rest
        rw [List.length_append]
        simp only [List.length_singleton]
        omega
      · rw [if_neg h2]
        exact selectLoop_length_le d tol max_colours rest sel h

/-- With at least one candidate and room for one colour, the greedy loop
starting from the empty selection accepts the first candidate. -/
theorem selectLoop_ne_nil (d : RGB8 → RGB8 → ℚ) (tol : ℚ) (max_colours : Nat)
    (c : RGB8) (rest : List RGB8) (hmax : 1 ≤ max_colours) :
    0 < (SortSelect.selectLoop d tol max_colours (c :: rest) []).length := by
  rw [selectLoop_cons]
  rw [if_neg (by simp; omega)]
  rw [if_pos (by simp)]
  obtain ⟨t, ht, _⟩ := selectLoop_shape d tol max_colours rest ([] ++ [c])
  rw [ht]
  simp

/-- `bump` leaves the key sequence unchanged or appends the new colour. -/
theorem bump_keys (px : RGB8) :
    ∀ m : List (RGB8 × Nat),
      (bump px m).map Prod.fst =
        if px ∈ m.map Prod.fst then m.map Prod.fst else m.map Prod.fst ++ [px]
  | [] => by simp [bump]
  | (c, n) :: rest => by
    by_cases hc : c = px
    · subst hc
      simp [bump]
    · have ih := bump_keys px rest
      simp only [bump, if_neg hc, List.map_cons, List.mem_cons]
      by_cases hm : px ∈ rest.map Prod.fst
      · rw [if_pos hm] at ih
        rw [ih, if_pos (Or.inr hm)]
      · rw [if_neg hm] at ih
        rw [ih, if_neg (by simp [hm, Ne.symm hc])]
        simp

/-- `bump` preserves distinctness of the keys. -/
theorem bump_keys_nodup (px : RGB8) (m : List (RGB8 × Nat))
    (h : (m.map Prod.fst).Nodup) : ((bump px m).map Prod.fst).Nodup := by
  rw [bump_keys]
  by_cases hm : px ∈ m.map Prod.fst
  · rw [if_pos hm]
    exact h
  · rw [if_neg hm]
    simp [List.nodup_append, h, hm]

/-- The histogram keys are distinct. -/
theorem countPixels_keys_nodup_aux :
    ∀ (l : List RGB8) (acc : List (RGB8 × Nat)), (acc.map Prod.fst).Nodup →
      (((l.foldl (fun a px => bump px a) acc)).map Prod.fst).Nodup
  | [], _, h => h
  | p :: rest, acc, h =>
    countPixels_keys_nodup_aux rest (bump p acc) (bump_keys_nodup p acc h)

theorem countPixels_keys_nodup (pixels : List RGB8) :
    ((countPixels pixels).map Prod.fst).Nodup :=
  countPixels_keys_nodup_aux pixels [] (by simp)

/-- The number of unique colours produced by `unique_and_sort` is the
number of distinct colours of the buffer. -/
theorem unique_and_sort_length (pixels : List RGB8) :
    (unique_and_sort pixels).length = pixels.toFinset.card := by
  unfold unique_and_sort SortSelect.sort
  rw [List.length_map, List.length_insertionSort]
  have hkeys : ((countPixels pixels).map Prod.fst).toFinset = pixels.toFinset := by
    ext x
    simp only [List.mem_toFinset]
    exact mem_countPixels pixels x
  have hcard : ((countPixels pixels).map Prod.fst).toFinset.card =
      ((countPixels pixels).map Prod.fst).length :=
    List.toFinset_card_of_nodup (countPixels_keys_nodup pixels)
  rw [hkeys] at hcard
  have hlm : (List.map Prod.fst (countPixels pixels)).length =
      (countPixels pixels).length := List.length_map _ _
  omega

theorem countPixels_ne_nil (pixels : List RGB8) (h : pixels ≠ []) :
    countPixels pixels ≠ [] := by
  rcases pixels with _ | ⟨p, rest⟩
  · exact absurd rfl h
  · intro hc
    have := (mem_countPixels (p :: rest) p).2 (List.mem_cons_self _ _)
    rw [hc] at this
    simp at this

theorem unique_and_sort_ne_nil (pixels : List RGB8) (h : pixels ≠ []) :
    unique_and_sort pixels ≠ [] := by
  unfold unique_and_sort SortSelect.sort
  intro hc
  have hlen : (countPixels pixels).length = 0 := by
    have h1 := congrArg List.length hc
    rw [List.length_map, List.length_insertionSort] at h1
    exact h1
  exact countPixels_ne_nil pixels h (List.length_eq_zero.1 hlen)

/-- One unfolding step of the compute-once selection loop. -/
theorem computeLoop_cons (d : RGB8 → RGB8 → ℚ) (tol : ℚ) (max_colours : Nat)
    (sc : RGB8) (n : Nat) (cands : List (RGB8 × Nat)) (sel : List RGB8) :
    HeuristicSorsel.computeLoop d tol max_colours ((sc, n) :: cands) sel =
      if max_colours ≤ sel.length then sel
      else if (sel.all fun selected_color => decide (tol < d selected_color sc)) = true then
        HeuristicSorsel.computeLoop d tol max_colours cands (sel ++ [sc])
      else HeuristicSorsel.computeLoop d tol max_colours cands sel := rfl

theorem computeLoop_shape (d : RGB8 → RGB8 → ℚ) (tol : ℚ) (max_colours : Nat) :
    ∀ (cands : List (RGB8 × Nat)) (sel : List RGB8),
      ∃ t, HeuristicSorsel.computeLoop d tol max_colours cands sel = sel ++ t ∧
        List.Sublist t (cands.map Prod.fst)
  | [], sel => ⟨[], by simp [HeuristicSorsel.computeLoop], List.nil_sublist _⟩
  | (sc, n) :: rest, sel => by
    rw [computeLoop_cons]
    by_cases h1 : max_colours ≤ sel.length
    · rw [if_pos h1]
      exact ⟨[], by simp, List.nil_sublist _⟩
    · rw [if_neg h1]
      by_cases h2 : (sel.all fun selected_color => decide (tol < d selected_color sc)) = true
      · rw [if_pos h2]
        obtain ⟨t, ht, hsub⟩ := computeLoop_shape d tol max_colours rest (sel ++ [sc])
        refine ⟨sc :: t, ?_, by simpa using hsub.cons₂ sc⟩
        rw [ht]
        simp
      · rw [if_neg h2]
        obtain ⟨t, ht, hsub⟩ := computeLoop_shape d tol max_colours rest sel
        exact ⟨t, ht, by simpa using hsub.cons sc⟩

theorem computeLoop_length_le (d : RGB8 → RGB8 → ℚ) (tol : ℚ) (max_colours : Nat) :
    ∀ (cands : List (RGB8 × Nat)) (sel : List RGB8), sel.length ≤ max_colours →
      (HeuristicSorsel.computeLoop d tol max_colours cands sel).length ≤ max_colours
  | [], _, h => h
  | (sc, n) :: rest, sel, h => by
    rw [computeLoop_cons]
    by_cases h1 : max_colours ≤ sel.length
    · rw [if_pos h1]
      exact h
    · rw [if_neg h1]
      by_cases h2 : (sel.all fun selected_color => decide (tol < d selected_color sc)) = true
      · rw [if_pos h2]
        apply computeLoop_length_le d tol max_colours rest
        rw [List.length_append]
        simp only [List.length_singleton]
        omega
      · rw [if_neg h2]
        exact computeLoop_length_le d tol max_colours rest sel h

theorem computeLoop_ne_nil (d : RGB8 → RGB8 → ℚ) (tol : ℚ) (max_colours : Nat)
    (sc : RGB8) (n : Nat) (rest : List (RGB8 × Nat)) (hmax : 1 ≤ max_colours) :
    0 < (HeuristicSorsel.computeLoop d tol max_colours ((sc, n) :: rest) []).length := by
  rw [computeLoop_cons]
  rw [if_neg (by simp; omega)]
  rw [if_pos (by simp)]
  obtain ⟨t, ht, _⟩ := computeLoop_shape d tol max_colours rest ([] ++ [sc])
  rw [ht]
  simp

/-- The palette produced by `compute_once` is nonempty, within
`max_colours`, and within the number of unique colours. -/
theorem compute_once_palette_bounds (d : RGB8 → RGB8 → ℚ)
    (colors : List (RGB8 × Nat)) (max_colours : Nat) (tol : ℚ)
    (hcol : colors ≠ []) (hmax : 1 ≤ max_colours) :
    0 < (HeuristicSorsel.compute_once d colors max_colours tol).palette.length ∧
    (HeuristicSorsel.compute_once d colors max_colours tol).palette.length ≤ max_colours ∧
    (HeuristicSorsel.compute_once d colors max_colours tol).palette.length ≤ colors.length := by
  have hpal : (HeuristicSorsel.compute_once d colors max_colours tol).palette =
      HeuristicSorsel.computeLoop d ((tol / 100) * 765) max_colours colors [] := rfl
  rw [hpal]
  refine ⟨?_, computeLoop_length_le d _ max_colours colors [] (by simp), ?_⟩
  · rcases colors with _ | ⟨⟨sc, n⟩, rest⟩
    · exact absurd rfl hcol
    · exact computeLoop_ne_nil d _ max_colours sc n rest hmax
  · obtain ⟨t, ht, hsub⟩ := computeLoop_shape d ((tol / 100) * 765) max_colours colors []
    rw [ht]
    simp only [List.nil_append]
    calc t.length ≤ (colors.map Prod.fst).length := hsub.length_le
    _ = colors.length := List.length_map _ _

/-- The running minimum of `compute_once` scoring never exceeds 765 once
it is at most 765. -/
theorem foldl_minDiff_le (d : RGB8 → RGB8 → ℚ) (c : RGB8)
    (hdb : ∀ a b, d a b ≤ 765) :
    ∀ (sel : List RGB8) (acc : ℚ), acc ≤ 765 →
      sel.foldl (fun min_diff selected =>
        if max (d selected c) 0 < min_diff then d selected c else min_diff) acc ≤ 765
  | [], _, h => h
  | p :: rest, acc, h => by
    simp only [List.foldl_cons]
    by_cases hc : max (d p c) 0 < acc
    · rw [if_pos hc]
      exact foldl_minDiff_le d c hdb rest _ (hdb p c)
    · rw [if_neg hc]
      exact foldl_minDiff_le d c hdb rest _ h

theorem minDiffOf_le (d : RGB8 → RGB8 → ℚ) (hdb : ∀ a b, d a b ≤ 765)
    (sel : List RGB8) (c : RGB8) (hne : sel ≠ []) :
    HeuristicSorsel.minDiffOf d sel c ≤ 765 := by
  rcases sel with _ | ⟨p, rest⟩
  · exact absurd rfl hne
  · unfold HeuristicSorsel.minDiffOf
    simp only [List.foldl_cons]
    have hfm : max (d p c) 0 < fmax := by
      have h1 : (765 : ℚ) < fmax := by norm_num [fmax]
      have h2 : (0 : ℚ) < fmax := by norm_num [fmax]
      exact max_lt (lt_of_le_of_lt (hdb p c) h1) h2
    rw [if_pos hfm]
    exact foldl_minDiff_le d c hdb rest _ (hdb p c)

/-- Upper bound on the count-weighted total error accumulated by the
`compute_once` scoring loop. -/
theorem score_foldl_le (d : RGB8 → RGB8 → ℚ) (selected : List RGB8)
    (hsel : selected ≠ []) (hdb : ∀ a b, d a b ≤ 765) :
    ∀ (colors : List (RGB8 × Nat)) (acc : ℚ),
      colors.foldl (fun sc p => sc + HeuristicSorsel.minDiffOf d selected p.1 * (p.2 : ℚ)) acc ≤
        acc + 765 * (colors.map fun p => ((p.2 : Nat) : ℚ)).sum
  | [], acc => by simp
  | p :: rest, acc => by
    simp only [List.foldl_cons, List.map_cons, List.sum_cons]
    have h1 := score_foldl_le d selected hsel hdb rest
      (acc + HeuristicSorsel.minDiffOf d selected p.1 * (p.2 : ℚ))
    have h2 : HeuristicSorsel.minDiffOf d selected p.1 * (p.2 : ℚ) ≤ 765 * (p.2 : ℚ) :=
      mul_le_mul_of_nonneg_right (minDiffOf_le d hdb selected p.1 hsel) (by positivity)
    linarith

theorem bump_sum (px : RGB8) :
    ∀ m : List (RGB8 × Nat),
      ((bump px m).map Prod.snd).sum = (m.map Prod.snd).sum + 1
  | [] => by simp [bump]
  | (c, n) :: rest => by
    by_cases hc : c = px
    · subst hc
      simp [bump]
      omega
    · have ih := bump_sum px rest
      simp only [bump, if_neg hc, List.map_cons, List.sum_cons, ih]
      omega

theorem countPixels_sum_aux :
    ∀ (l : List RGB8) (acc : List (RGB8 × Nat)),
      (((l.foldl (fun a px => bump px a) acc)).map Prod.snd).sum =
        (acc.map Prod.snd).sum + l.length
  | [], acc => by simp
  | p :: rest, acc => by
    simp only [List.foldl_cons, List.length_cons]
    rw [countPixels_sum_aux rest (bump p acc), bump_sum]
    omega

/-- The histogram counts sum to the pixel count. -/
theorem countPixels_sum (pixels : List RGB8) :
    ((countPixels pixels).map Prod.snd).sum = pixels.length := by
  unfold countPixels
  rw [countPixels_sum_aux pixels []]
  simp

theorem sum_counts_cast (l : List (RGB8 × Nat)) :
    (l.map fun p => ((p.2 : Nat) : ℚ)).sum = (((l.map Prod.snd).sum : Nat) : ℚ) := by
  induction l with
  | nil => simp
  | cons p rest ih =>
    simp only [List.map_cons, List.sum_cons, ih]
    push_cast
    ring

theorem unique_and_sort_counts_sum (pixels : List RGB8) :
    ((unique_and_sort_counts pixels).map Prod.snd).sum = pixels.length := by
  unfold unique_and_sort_counts HeuristicSorsel.sort
  rw [((List.perm_insertionSort histLe (countPixels pixels)).map Prod.snd).sum_eq]
  exact countPixels_sum pixels

theorem countPixels_length (pixels : List RGB8) :
    (countPixels pixels).length = pixels.toFinset.card := by
  have h := unique_and_sort_length pixels
  unfold unique_and_sort SortSelect.sort at h
  rw [List.length_map, List.length_insertionSort] at h
  exact h

theorem unique_and_sort_counts_length (pixels : List RGB8) :
    (unique_and_sort_counts pixels).length = pixels.toFinset.card := by
  unfold unique_and_sort_counts HeuristicSorsel.sort
  rw [List.length_insertionSort]
  exact countPixels_length pixels

theorem unique_and_sort_counts_ne_nil (pixels : List RGB8) (h : pixels ≠ []) :
    unique_and_sort_counts pixels ≠ [] := by
  unfold unique_and_sort_counts HeuristicSorsel.sort
  intro hc
  have h1 := congrArg List.length hc
  rw [List.length_insertionSort] at h1
  exact countPixels_ne_nil pixels h (List.length_eq_zero.1 h1)

/-- Any score computed by `compute_once` on a nonempty histogram is below
`f32::MAX`, provided the metric is bounded by 765 and the total count is
small enough (total * 765 below `f32::MAX`). -/
theorem compute_once_score_lt (d : RGB8 → RGB8 → ℚ)
    (colors : List (RGB8 × Nat)) (max_colours : Nat) (tol : ℚ)
    (hcol : colors ≠ []) (hmax : 1 ≤ max_colours)
    (hdb : ∀ a b, d a b ≤ 765)
    (htot : 765 * (colors.map fun p => ((p.2 : Nat) : ℚ)).sum < fmax) :
    (HeuristicSorsel.compute_once d colors max_colours tol).score < fmax := by
  have hsel : HeuristicSorsel.computeLoop d ((tol / 100) * 765) max_colours colors [] ≠ [] := by
    have hb := (compute_once_palette_bounds d colors max_colours tol hcol hmax).1
    intro hc
    rw [show (HeuristicSorsel.compute_once d colors max_colours tol).palette =
      HeuristicSorsel.computeLoop d ((tol / 100) * 765) max_colours colors [] from rfl, hc] at hb
    simp at hb
  have hscore : (HeuristicSorsel.compute_once d colors max_colours tol).score =
      colors.foldl (fun sc p => sc + HeuristicSorsel.minDiffOf d
        (HeuristicSorsel.computeLoop d ((tol / 100) * 765) max_colours colors []) p.1 *
          (p.2 : ℚ)) 0 := rfl
  rw [hscore]
  have h1 := score_foldl_le d _ hsel hdb colors 0
  linarith

/-- The tolerance-search loop preserves palette-size bounds of the best
run, given every `compute_once` run satisfies them. -/
theorem heuristicLoop_good (d : RGB8 → RGB8 → ℚ) (colors : List (RGB8 × Nat))
    (max_colours : Nat) (hcol : colors ≠ []) (hmax : 1 ≤ max_colours) :
    ∀ (fuel : Nat) (tol var : ℚ) (best : RunData),
      0 < best.palette.length ∧ best.palette.length ≤ max_colours ∧
        best.palette.length ≤ colors.length →
      0 < (HeuristicSorsel.heuristicLoop d colors max_colours fuel tol var best).palette.length ∧
      (HeuristicSorsel.heuristicLoop d colors max_colours fuel tol var best).palette.length ≤
        max_colours ∧
      (HeuristicSorsel.heuristicLoop d colors max_colours fuel tol var best).palette.length ≤
        colors.length
  | 0, _, _, best, h => h
  | fuel + 1, tol, var, best, h => by
    unfold HeuristicSorsel.heuristicLoop
    by_cases h1 : best.score ≤ (HeuristicSorsel.compute_once d colors max_colours (tol + var)).score ∧
        best.score ≤ (HeuristicSorsel.compute_once d colors max_colours (tol - var)).score
    · rw [if_pos h1]
      by_cases h2 : (1 : ℚ) / 100 < var
      · rw [if_pos h2]
        exact heuristicLoop_good d colors max_colours hcol hmax fuel tol (var / 2) best h
      · rw [if_neg h2]
        exact h
    · rw [if_neg h1]
      by_cases h3 : (HeuristicSorsel.compute_once d colors max_colours (tol + var)).score <
          (HeuristicSorsel.compute_once d colors max_colours (tol - var)).score
      · rw [if_pos h3]
        exact heuristicLoop_good d colors max_colours hcol hmax fuel (tol + var) var _
          (compute_once_palette_bounds d colors max_colours (tol + var) hcol hmax)
      · rw [if_neg h3]
        exact heuristicLoop_good d colors max_colours hcol hmax fuel (tol - var) var _
          (compute_once_palette_bounds d colors max_colours (tol - var) hcol hmax)

/-- A fold that at each step keeps either the accumulator or the current
element stays within the seed and the traversed list. -/
theorem foldl_choice_mem {α : Type} (f : α → α → α)
    (hf : ∀ a x, f a x = a ∨ f a x = x) :
    ∀ (l : List α) (a : α), l.foldl f a ∈ a :: l
  | [], a => List.mem_singleton.2 rfl
  | x :: rest, a => by
    simp only [List.foldl_cons]
    rcases hf a x with he | he <;> rw [he]
    · have h := foldl_choice_mem f hf rest a
      rcases List.mem_cons.1 h with h2 | h2
      · exact List.mem_cons.2 (Or.inl h2)
      · exact List.mem_cons.2 (Or.inr (List.mem_cons_of_mem _ h2))
    · have h := foldl_choice_mem f hf rest x
      rcases List.mem_cons.1 h with h2 | h2
      · exact List.mem_cons.2 (Or.inr (List.mem_cons.2 (Or.inl h2)))
      · exact List.mem_cons.2 (Or.inr (List.mem_cons_of_mem _ h2))

theorem closest_centroid_mem (centroids : List RGBq) (v : RGBq)
    (h : centroids ≠ []) : KMeans.closest_centroid centroids v ∈ centroids := by
  rcases centroids with _ | ⟨c, rest⟩
  · exact absurd rfl h
  · unfold KMeans.closest_centroid
    exact foldl_choice_mem _
      (fun a x => by
        by_cases hc : normSq x v < normSq a v
        · rw [if_pos hc]
          exact Or.inr rfl
        · rw [if_neg hc]
          exact Or.inl rfl)
      rest c

/-- A last-max fold lands in the traversed list (or on the seed) and
dominates the seed and every traversed element. -/
theorem foldl_argmax_spec (g : RGB8 → ℚ) :
    ∀ (l : List RGB8) (a : RGB8),
      (l.foldl (fun acc x => if g x < g acc then acc else x) a) ∈ a :: l ∧
      g a ≤ g (l.foldl (fun acc x => if g x < g acc then acc else x) a) ∧
      ∀ t ∈ l, g t ≤ g (l.foldl (fun acc x => if g x < g acc then acc else x) a)
  | [], a => ⟨List.mem_singleton.2 rfl, le_refl _, by simp⟩
  | x :: rest, a => by
    simp only [List.foldl_cons]
    have hsub : ∀ y : RGB8, y ∈ a :: rest → y ∈ a :: x :: rest := by
      intro y hy
      rcases List.mem_cons.1 hy with rfl | hy2
      · exact List.mem_cons_self _ _
      · exact List.mem_cons_of_mem _ (List.mem_cons_of_mem _ hy2)
    by_cases hc : g x < g a
    · rw [if_pos hc]
      obtain ⟨hm, hga, hall⟩ := foldl_argmax_spec g rest a
      refine ⟨hsub _ hm, hga, ?_⟩
      intro t ht
      rcases List.mem_cons.1 ht with rfl | h2
      · exact le_trans (le_of_lt hc) hga
      · exact hall t h2
    · rw [if_neg hc]
      obtain ⟨hm, hgx, hall⟩ := foldl_argmax_spec g rest x
      have hax : g a ≤ g x := not_lt.1 hc
      refine ⟨List.mem_cons_of_mem _ hm, le_trans hax hgx, ?_⟩
      intro t ht
      rcases List.mem_cons.1 ht with rfl | h2
      · exact hgx
      · exact hall t h2

/-- The seeding `max_by` picks a sample of maximal distance to its
nearest centroid. -/
theorem maxBySample_spec (samples : List RGB8) (centroids : List RGBq)
    (hs : samples ≠ []) :
    KMeans.maxBySample samples centroids ∈ samples ∧
    ∀ t ∈ samples,
      KMeans.distToNearest centroids t ≤
        KMeans.distToNearest centroids (KMeans.maxBySample samples centroids) := by
  rcases samples with _ | ⟨s, rest⟩
  · exact absurd rfl hs
  · unfold KMeans.maxBySample
    obtain ⟨hm, hgs, hall⟩ := foldl_argmax_spec (KMeans.distToNearest centroids) rest s
    refine ⟨hm, ?_⟩
    intro t ht
    rcases List.mem_cons.1 ht with rfl | h2
    · exact hgs
    · exact hall t h2

theorem mem_uniqKeysAux :
    ∀ (l seen : List RGBq) (x : RGBq),
      x ∈ KMeans.uniqKeysAux seen l ↔ x ∈ l ∧ x ∉ seen
  | [], seen, x => by simp [KMeans.uniqKeysAux]
  | y :: rest, seen, x => by
    unfold KMeans.uniqKeysAux
    by_cases hy : y ∈ seen
    · rw [if_pos hy, mem_uniqKeysAux rest seen x]
      constructor
      · rintro ⟨h1, h2⟩
        exact ⟨List.mem_cons_of_mem _ h1, h2⟩
      · rintro ⟨h1, h2⟩
        rcases List.mem_cons.1 h1 with rfl | h3
        · exact absurd hy h2
        · exact ⟨h3, h2⟩
    · rw [if_neg hy]
      constructor
      · intro h
        rcases List.mem_cons.1 h with rfl | h2
        · exact ⟨List.mem_cons_self _ _, hy⟩
        · obtain ⟨h3, h4⟩ := (mem_uniqKeysAux rest (y :: seen) x).1 h2
          exact ⟨List.mem_cons_of_mem _ h3, fun hx => h4 (List.mem_cons_of_mem _ hx)⟩
      · rintro ⟨h1, h2⟩
        rcases List.mem_cons.1 h1 with rfl | h3
        · exact List.mem_cons_self _ _
        · by_cases hxy : x = y
          · subst hxy
            exact List.mem_cons_self _ _
          · refine List.mem_cons_of_mem _ ((mem_uniqKeysAux rest (y :: seen) x).2 ⟨h3, ?_⟩)
            simp [List.mem_cons, hxy, h2]

theorem uniqKeysAux_nodup :
    ∀ (l seen : List RGBq), (KMeans.uniqKeysAux seen l).Nodup
  | [], _ => List.nodup_nil
  | y :: rest, seen => by
    unfold KMeans.uniqKeysAux
    by_cases hy : y ∈ seen
    · rw [if_pos hy]
      exact uniqKeysAux_nodup rest seen
    · rw [if_neg hy]
      refine List.Nodup.cons ?_ (uniqKeysAux_nodup rest (y :: seen))
      intro hmem
      exact ((mem_uniqKeysAux rest (y :: seen) y).1 hmem).2 (List.mem_cons_self _ _)

theorem uniqKeysAux_ne_nil (y : RGBq) (rest : List RGBq) :
    KMeans.uniqKeysAux [] (y :: rest) ≠ [] := by
  unfold KMeans.uniqKeysAux
  rw [if_neg (List.not_mem_nil y)]
  simp

/-- One k-means refinement round: at least one and at most `|centroids|`
clusters form, and never more clusters than distinct sample colours. -/
theorem iterOnce_bounds (samples : List RGB8) (cs : List RGBq)
    (hs : samples ≠ []) (hc : cs ≠ []) :
    0 < (KMeans.iterOnce samples cs).length ∧
    (KMeans.iterOnce samples cs).length ≤ cs.length ∧
    (KMeans.iterOnce samples cs).length ≤ samples.toFinset.card := by
  have hlen : (KMeans.iterOnce samples cs).length =
      (KMeans.uniqKeysAux []
        (samples.map fun s => KMeans.closest_centroid cs (toQ s))).length := by
    simp [KMeans.iterOnce]
  rw [hlen]
  have hnd := uniqKeysAux_nodup
    (samples.map fun s => KMeans.closest_centroid cs (toQ s)) []
  have hcard : (KMeans.uniqKeysAux []
      (samples.map fun s => KMeans.closest_centroid cs (toQ s))).length =
      (KMeans.uniqKeysAux []
        (samples.map fun s => KMeans.closest_centroid cs (toQ s))).toFinset.card :=
    (List.toFinset_card_of_nodup hnd).symm
  refine ⟨?_, ?_, ?_⟩
  · rcases samples with _ | ⟨s, rest⟩
    · exact absurd rfl hs
    · simp only [List.map_cons]
      exact List.length_pos.2 (uniqKeysAux_ne_nil _ _)
  · rw [hcard]
    have hsubset : (KMeans.uniqKeysAux []
        (samples.map fun s => KMeans.closest_centroid cs (toQ s))).toFinset ⊆
        cs.toFinset := by
      intro x hx
      rw [List.mem_toFinset] at hx ⊢
      obtain ⟨hxm, _⟩ := (mem_uniqKeysAux _ [] x).1 hx
      obtain ⟨s, _, hsx⟩ := List.mem_map.1 hxm
      rw [← hsx]
      exact closest_centroid_mem cs (toQ s) hc
    calc (KMeans.uniqKeysAux []
        (samples.map fun s => KMeans.closest_centroid cs (toQ s))).toFinset.card
        ≤ cs.toFinset.card := Finset.card_le_card hsubset
      _ ≤ cs.length := List.toFinset_card_le cs
  · rw [hcard]
    have himg : (samples.map fun s => KMeans.closest_centroid cs (toQ s)).toFinset =
        samples.toFinset.image fun s => KMeans.closest_centroid cs (toQ s) := by
      ext x
      simp
    have hsubset : (KMeans.uniqKeysAux []
        (samples.map fun s => KMeans.closest_centroid cs (toQ s))).toFinset ⊆
        (samples.map fun s => KMeans.closest_centroid cs (toQ s)).toFinset := by
      intro x hx
      rw [List.mem_toFinset] at hx ⊢
      exact ((mem_uniqKeysAux _ [] x).1 hx).1
    calc (KMeans.uniqKeysAux []
        (samples.map fun s => KMeans.closest_centroid cs (toQ s))).toFinset.card
        ≤ (samples.map fun s => KMeans.closest_centroid cs (toQ s)).toFinset.card :=
          Finset.card_le_card hsubset
      _ = (samples.toFinset.image fun s => KMeans.closest_centroid cs (toQ s)).card := by
          rw [himg]
      _ ≤ samples.toFinset.card := Finset.card_image_le

theorem kmeansIter_bounds (samples : List RGB8) (hs : samples ≠ []) :
    ∀ (n : Nat) (cs : List RGBq), cs ≠ [] →
      KMeans.kmeansIter samples n cs ≠ [] ∧
      (KMeans.kmeansIter samples n cs).length ≤ cs.length ∧
      (1 ≤ n → (KMeans.kmeansIter samples n cs).length ≤ samples.toFinset.card)
  | 0, cs, hc => ⟨hc, le_refl _, fun h => absurd h (by norm_num)⟩
  | n + 1, cs, hc => by
    obtain ⟨h1, h2, h3⟩ := iterOnce_bounds samples cs hs hc
    have hne : KMeans.iterOnce samples cs ≠ [] := by
      intro h0
      rw [h0] at h1
      simp at h1
    obtain ⟨g1, g2, g3⟩ := kmeansIter_bounds samples hs n (KMeans.iterOnce samples cs) hne
    refine ⟨g1, le_trans g2 h2, fun _ => ?_⟩
    cases n with
    | zero => exact h3
    | succ m => exact g3 (by omega)

theorem seedLoop_ne_nil (samples : List RGB8) (k : Nat) :
    ∀ (fuel : Nat) (cs : List RGBq), cs ≠ [] →
      KMeans.seedLoop samples k fuel cs ≠ []
  | 0, _, h => h
  | fuel + 1, cs, h => by
    unfold KMeans.seedLoop
    by_cases hc : cs.length < k
    · rw [if_pos hc]
      apply seedLoop_ne_nil samples k fuel
      simp
    · rw [if_neg hc]
      exact h

theorem seedLoop_length_le (samples : List RGB8) (k : Nat) :
    ∀ (fuel : Nat) (cs : List RGBq), cs.length ≤ k →
      (KMeans.seedLoop samples k fuel cs).length ≤ k
  | 0, _, h => h
  | fuel + 1, cs, h => by
    unfold KMeans.seedLoop
    by_cases hc : cs.length < k
    · rw [if_pos hc]
      apply seedLoop_length_le samples k fuel
      rw [List.length_append]
      simp only [List.length_singleton]
      omega
    · rw [if_neg hc]
      exact h

theorem seedLoop_length_exact (samples : List RGB8) (k : Nat) :
    ∀ (fuel : Nat) (cs : List RGBq), cs.length ≤ k → k ≤ cs.length + fuel →
      (KMeans.seedLoop samples k fuel cs).length = k
  | 0, cs, h1, h2 => by
    unfold KMeans.seedLoop
    omega
  | fuel + 1, cs, h1, h2 => by
    unfold KMeans.seedLoop
    by_cases hc : cs.length < k
    · rw [if_pos hc]
      apply seedLoop_length_exact samples k fuel
      · rw [List.length_append]
        simp only [List.length_singleton]
        omega
      · rw [List.length_append]
        simp only [List.length_singleton]
        omega
    · rw [if_neg hc]
      omega

theorem seeds_ne_nil (samples : List RGB8) (k : Nat) (hs : samples ≠ []) :
    KMeans.get_centroid_seeds_simple samples k ≠ [] := by
  unfold KMeans.get_centroid_seeds_simple
  by_cases h : samples.length ≤ k
  · rw [if_pos h]
    simp [hs]
  · rw [if_neg h]
    exact seedLoop_ne_nil samples k k [toQ (samples.headD default)] (by simp)

theorem seeds_length_le (samples : List RGB8) (k : Nat) (hk : 1 ≤ k) :
    (KMeans.get_centroid_seeds_simple samples k).length ≤ k := by
  unfold KMeans.get_centroid_seeds_simple
  by_cases h : samples.length ≤ k
  · rw [if_pos h]
    rw [List.length_map]
    exact h
  · rw [if_neg h]
    apply seedLoop_length_le samples k k
    simp only [List.length_singleton]
    omega

/-- C3: on a non-empty pixel buffer with `max_colors ≥ 1` and a valid
configuration (at least one search attempt, at least one k-means
iteration, a metric bounded like the supplied ones, and a pixel count
whose worst-case score stays below `f32::MAX`), each selection strategy
returns a palette with `0 < len ≤ max_colors`, and never longer than the
number of unique colours of the image (so with fewer unique colours than
`max_colors` the palette is shorter, not padded). -/
theorem c3_palette_size_bounds (d : RGB8 → RGB8 → ℚ)
    (tolerance variance : ℚ) (max_colours max_attempts max_iter : Nat)
    (pixels : List RGB8)
    (hne : pixels ≠ []) (hmax : 1 ≤ max_colours) (hatt : 1 ≤ max_attempts)
    (hiter : 1 ≤ max_iter)
    (hdb : ∀ a b, d a b ≤ 765)
    (htot : (pixels.length : ℚ) * 765 < fmax) :
    (0 < (SortSelect.select d tolerance max_colours pixels).length ∧
      (SortSelect.select d tolerance max_colours pixels).length ≤ max_colours ∧
      (SortSelect.select d tolerance max_colours pixels).length ≤
        pixels.toFinset.card) ∧
    (0 < (HeuristicSorsel.select d tolerance variance max_attempts max_colours
        pixels).length ∧
      (HeuristicSorsel.select d tolerance variance max_attempts max_colours
        pixels).length ≤ max_colours ∧
      (HeuristicSorsel.select d tolerance variance max_attempts max_colours
        pixels).length ≤ pixels.toFinset.card) ∧
    (0 < (KMeans.get_k_colors pixels max_colours max_iter).length ∧
      (KMeans.get_k_colors pixels max_colours max_iter).length ≤ max_colours ∧
      (KMeans.get_k_colors pixels max_colours max_iter).length ≤
        pixels.toFinset.card) := by
  refine ⟨?_, ?_, ?_⟩
  · -- greedy sort/select
    have hu := unique_and_sort_ne_nil pixels hne
    have hsel : SortSelect.select d tolerance max_colours pixels =
        SortSelect.selectLoop d ((tolerance / 100) * 765) max_colours
          (unique_and_sort pixels) [] := rfl
    rw [hsel]
    refine ⟨?_, selectLoop_length_le d _ max_colours _ [] (by simp), ?_⟩
    · rcases hcand : unique_and_sort pixels with _ | ⟨c, rest⟩
      · exact absurd hcand hu
      · exact selectLoop_ne_nil d _ max_colours c rest hmax
    · obtain ⟨t, ht, hsub⟩ := selectLoop_shape d ((tolerance / 100) * 765)
        max_colours (unique_and_sort pixels) []
      rw [ht]
      simp only [List.nil_append]
      calc t.length ≤ (unique_and_sort pixels).length := hsub.length_le
        _ = pixels.toFinset.card := unique_and_sort_length pixels
  · -- adaptive tolerance search
    have hcol := unique_and_sort_counts_ne_nil pixels hne
    have hsel : HeuristicSorsel.select d tolerance variance max_attempts
        max_colours pixels =
        (HeuristicSorsel.heuristicLoop d (unique_and_sort_counts pixels) max_colours
          max_attempts tolerance variance ⟨[], fmax⟩).palette := rfl
    have htot2 : 765 * ((unique_and_sort_counts pixels).map
        fun p => ((p.2 : Nat) : ℚ)).sum < fmax := by
      rw [sum_counts_cast, unique_and_sort_counts_sum]
      linarith
    have hscore_up := compute_once_score_lt d (unique_and_sort_counts pixels)
      max_colours (tolerance + variance) hcol hmax hdb htot2
    rcases max_attempts with _ | fuel
    · exact absurd hatt (by norm_num)
    · have hstep : HeuristicSorsel.heuristicLoop d (unique_and_sort_counts pixels)
          max_colours (fuel + 1) tolerance variance ⟨[], fmax⟩ =
          if (⟨[], fmax⟩ : RunData).score ≤ (HeuristicSorsel.compute_once d
              (unique_and_sort_counts pixels) max_colours (tolerance + variance)).score ∧
            (⟨[], fmax⟩ : RunData).score ≤ (HeuristicSorsel.compute_once d
              (unique_and_sort_counts pixels) max_colours (tolerance - variance)).score then
            (if (1 : ℚ) / 100 < variance then
              HeuristicSorsel.heuristicLoop d (unique_and_sort_counts pixels)
                max_colours fuel tolerance (variance / 2) ⟨[], fmax⟩
            else ⟨[], fmax⟩)
          else if (HeuristicSorsel.compute_once d (unique_and_sort_counts pixels)
              max_colours (tolerance + variance)).score <
              (HeuristicSorsel.compute_once d (unique_and_sort_counts pixels)
                max_colours (tolerance - variance)).score then
            HeuristicSorsel.heuristicLoop d (unique_and_sort_counts pixels)
              max_colours fuel (tolerance + variance) variance
              (HeuristicSorsel.compute_once d (unique_and_sort_counts pixels)
                max_colours (tolerance + variance))
          else
            HeuristicSorsel.heuristicLoop d (unique_and_sort_counts pixels)
              max_colours fuel (tolerance - variance) variance
              (HeuristicSorsel.compute_once d (unique_and_sort_counts pixels)
                max_colours (tolerance - variance)) := rfl
      have hcond : ¬ ((⟨[], fmax⟩ : RunData).score ≤ (HeuristicSorsel.compute_once d
          (unique_and_sort_counts pixels) max_colours (tolerance + variance)).score ∧
          (⟨[], fmax⟩ : RunData).score ≤ (HeuristicSorsel.compute_once d
            (unique_and_sort_counts pixels) max_colours (tolerance - variance)).score) := by
        intro hcontra
        have h1 := hcontra.1
        simp only at h1
        linarith
      rw [hsel, hstep, if_neg hcond]
      by_cases h3 : (HeuristicSorsel.compute_once d (unique_and_sort_counts pixels)
          max_colours (tolerance + variance)).score <
          (HeuristicSorsel.compute_once d (unique_and_sort_counts pixels)
            max_colours (tolerance - variance)).score
      · rw [if_pos h3]
        have hun : (unique_and_sort_counts pixels).length = pixels.toFinset.card :=
          unique_and_sort_counts_length pixels
        have hg := heuristicLoop_good d (unique_and_sort_counts pixels) max_colours
          hcol hmax fuel (tolerance + variance) variance _
          (compute_once_palette_bounds d (unique_and_sort_counts pixels) max_colours
            (tolerance + variance) hcol hmax)
        exact ⟨hg.1, hg.2.1, hun ▸ hg.2.2⟩
      · rw [if_neg h3]
        have hun : (unique_and_sort_counts pixels).length = pixels.toFinset.card :=
          unique_and_sort_counts_length pixels
        have hg := heuristicLoop_good d (unique_and_sort_counts pixels) max_colours
          hcol hmax fuel (tolerance - variance) variance _
          (compute_once_palette_bounds d (unique_and_sort_counts pixels) max_colours
            (tolerance - variance) hcol hmax)
        exact ⟨hg.1, hg.2.1, hun ▸ hg.2.2⟩
  · -- k-means
    have hseeds := seeds_ne_nil pixels max_colours hne
    obtain ⟨g1, g2, g3⟩ := kmeansIter_bounds pixels hne max_iter
      (KMeans.get_centroid_seeds_simple pixels max_colours) hseeds
    have hlen : (KMeans.get_k_colors pixels max_colours max_iter).length =
        (KMeans.kmeansIter pixels max_iter
          (KMeans.get_centroid_seeds_simple pixels max_colours)).length := by
      simp [KMeans.get_k_colors]
    rw [hlen]
    exact ⟨List.length_pos.2 g1,
      le_trans g2 (seeds_length_le pixels max_colours hmax), g3 hiter⟩

/-- C3 witnessed on a single-pixel image with the `rgb` metric and all
configuration values at 1. -/
theorem c3_witness :
    (0 < (SortSelect.select difference.rgb 1 1 [mkColor 3 4 5]).length ∧
      (SortSelect.select difference.rgb 1 1 [mkColor 3 4 5]).length ≤ 1 ∧
      (SortSelect.select difference.rgb 1 1 [mkColor 3 4 5]).length ≤
        ([mkColor 3 4 5] : List RGB8).toFinset.card) ∧
    (0 < (HeuristicSorsel.select difference.rgb 1 1 1 1 [mkColor 3 4 5]).length ∧
      (HeuristicSorsel.select difference.rgb 1 1 1 1 [mkColor 3 4 5]).length ≤ 1 ∧
      (HeuristicSorsel.select difference.rgb 1 1 1 1 [mkColor 3 4 5]).length ≤
        ([mkColor 3 4 5] : List RGB8).toFinset.card) ∧
    (0 < (KMeans.get_k_colors [mkColor 3 4 5] 1 1).length ∧
      (KMeans.get_k_colors [mkColor 3 4 5] 1 1).length ≤ 1 ∧
      (KMeans.get_k_colors [mkColor 3 4 5] 1 1).length ≤
        ([mkColor 3 4 5] : List RGB8).toFinset.card) :=
  c3_palette_size_bounds difference.rgb 1 1 1 1 1 [mkColor 3 4 5]
    (by simp) (le_refl 1) (le_refl 1) (le_refl 1)
    (fun a b => difference.rgb_le_765 a b)
    (by norm_num [fmax])

/-- The seeding loop only appends; every appended centroid is (the image
of) a sample whose distance to its nearest centroid among the seeds
chosen so far is maximal. -/
theorem seedLoop_spec (samples : List RGB8) (hs : samples ≠ []) (k : Nat) :
    ∀ (fuel : Nat) (cs : List RGBq),
      ∃ t, KMeans.seedLoop samples k fuel cs = cs ++ t ∧
        ∀ i, cs.length ≤ i → i < (cs ++ t).length →
          ∃ s ∈ samples, (cs ++ t).getD i ⟨0, 0, 0⟩ = toQ s ∧
            ∀ x ∈ samples,
              KMeans.distToNearest ((cs ++ t).take i) x ≤
                KMeans.distToNearest ((cs ++ t).take i) s
  | 0, cs =>
    ⟨[], by simp [KMeans.seedLoop], by
      intro i h1 h2
      rw [List.append_nil] at h2
      exact absurd (Nat.lt_of_le_of_lt h1 h2) (Nat.lt_irrefl _)⟩
  | fuel + 1, cs => by
    unfold KMeans.seedLoop
    by_cases hc : cs.length < k
    · rw [if_pos hc]
      obtain ⟨t2, ht2, hp2⟩ := seedLoop_spec samples hs k fuel
        (cs ++ [toQ (KMeans.maxBySample samples cs)])
      refine ⟨toQ (KMeans.maxBySample samples cs) :: t2, ?_, ?_⟩
      · rw [ht2]
        simp
      · intro i h1 h2
        have hassoc : cs ++ (toQ (KMeans.maxBySample samples cs) :: t2) =
            (cs ++ [toQ (KMeans.maxBySample samples cs)]) ++ t2 := by simp
        by_cases hi : i = cs.length
        · subst hi
          obtain ⟨hmem, hmax⟩ := maxBySample_spec samples cs hs
          refine ⟨KMeans.maxBySample samples cs, hmem, ?_, ?_⟩
          · rw [List.getD_append_right cs _ _ _ (le_refl _)]
            simp
          · intro x hx
            have htake : (cs ++ (toQ (KMeans.maxBySample samples cs) :: t2)).take
                cs.length = cs := List.take_left cs _
            rw [htake]
            exact hmax x hx
        · rw [hassoc] at h2 ⊢
          apply hp2 i ?_ h2
          rw [List.length_append, List.length_singleton]
          omega
    · rw [if_neg hc]
      exact ⟨[], by simp, by
        intro i h1 h2
        rw [List.append_nil] at h2
        exact absurd (Nat.lt_of_le_of_lt h1 h2) (Nat.lt_irrefl _)⟩

/-- C8 counterexample: three identical samples with `k = 2`.  Only one
distinct sample exists, yet the seeding produces two centroids — it does
not stop when the distinct samples are exhausted, and emits duplicates. -/
theorem c8_counterexample :
    KMeans.get_centroid_seeds_simple
        [mkColor 0 0 0, mkColor 0 0 0, mkColor 0 0 0] 2 =
      [toQ (mkColor 0 0 0), toQ (mkColor 0 0 0)] ∧
    ([mkColor 0 0 0, mkColor 0 0 0, mkColor 0 0 0] : List RGB8).toFinset.card = 1 ∧
    ¬ (KMeans.get_centroid_seeds_simple
        [mkColor 0 0 0, mkColor 0 0 0, mkColor 0 0 0] 2).Nodup := by
  have h1 : KMeans.get_centroid_seeds_simple
      [mkColor 0 0 0, mkColor 0 0 0, mkColor 0 0 0] 2 =
      [toQ (mkColor 0 0 0), toQ (mkColor 0 0 0)] := by
    norm_num [KMeans.get_centroid_seeds_simple, KMeans.seedLoop, KMeans.maxBySample,
      KMeans.distToNearest, KMeans.closest_centroid, normSq, toQ, mkColor, List.foldl]
  refine ⟨h1, by decide, ?_⟩
  rw [h1]
  simp

/-- C8 amended: seeding starts from the first sample and repeatedly adds
a sample whose distance to its nearest existing centroid is maximal,
stopping exactly when `k` centroids are chosen; if the sample list is not
longer than `k`, every sample (with multiplicity, duplicates included)
becomes a centroid. -/
theorem c8_seeding_amended (samples : List RGB8) (k : Nat)
    (hs : samples ≠ []) (hk : 1 ≤ k) :
    (samples.length ≤ k →
      KMeans.get_centroid_seeds_simple samples k = samples.map toQ) ∧
    (k < samples.length →
      (KMeans.get_centroid_seeds_simple samples k).length = k ∧
      (KMeans.get_centroid_seeds_simple samples k).getD 0 ⟨0, 0, 0⟩ =
        toQ (samples.headD default) ∧
      (∀ i, 1 ≤ i → i < k →
        ∃ s ∈ samples,
          (KMeans.get_centroid_seeds_simple samples k).getD i ⟨0, 0, 0⟩ = toQ s ∧
          ∀ x ∈ samples,
            KMeans.distToNearest
                ((KMeans.get_centroid_seeds_simple samples k).take i) x ≤
              KMeans.distToNearest
                ((KMeans.get_centroid_seeds_simple samples k).take i) s)) := by
  constructor
  · intro h
    unfold KMeans.get_centroid_seeds_simple
    rw [if_pos h]
  · intro h
    have hnotle : ¬ samples.length ≤ k := by omega
    have hseeds : KMeans.get_centroid_seeds_simple samples k =
        KMeans.seedLoop samples k k [toQ (samples.headD default)] := by
      unfold KMeans.get_centroid_seeds_simple
      rw [if_neg hnotle]
    obtain ⟨t, ht, hp⟩ := seedLoop_spec samples hs k k [toQ (samples.headD default)]
    have hlen : (KMeans.seedLoop samples k k
        [toQ (samples.headD default)]).length = k := by
      apply seedLoop_length_exact samples k k
      · simp only [List.length_singleton]
        omega
      · simp only [List.length_singleton]
        omega
    refine ⟨hseeds ▸ hlen, ?_, ?_⟩
    · rw [hseeds, ht, List.singleton_append]
      rfl
    · intro i h1 h2
      have h1b : ([toQ (samples.headD default)] : List RGBq).length ≤ i := by
        simp only [List.length_singleton]
        omega
      have h2b : i < (([toQ (samples.headD default)] : List RGBq) ++ t).length := by
        rw [← ht, hlen]
        exact h2
      have hout := hp i h1b h2b
      rw [hseeds, ht]
      exact hout

/-- C8 amended, witnessed: with one sample and `k = 1`, the sample list
itself (mapped to float vectors) is returned. -/
theorem c8_witness :
    KMeans.get_centroid_seeds_simple [mkColor 1 2 3] 1 =
      ([mkColor 1 2 3] : List RGB8).map toQ :=
  (c8_seeding_amended [mkColor 1 2 3] 1 (by simp) (le_refl 1)).1 (by norm_num)
